import Mathlib

/-!
Shallow embedding of the docxjs HTML renderer core (src/src/html-renderer.ts):
style cascade resolution, numbering-to-CSS compilation and section splitting.
JavaScript objects are modelled as ordered association lists with unique keys,
absent values as `Option`, thrown exceptions as an error outcome, and the
unbounded recursion of `resolveBaseStyle` as fuel-indexed recursion where
`none` means the recursion does not complete for the given budget.
-/

namespace Docx

/-! ### String-keyed records modelling JavaScript objects -/

/-- An ordered string-keyed record, modelling a JavaScript object used as a
property map (insertion ordered, unique keys). -/
abbrev StrMap := List (String × String)

/-- `hasOwnProperty`. -/
def hasKey (m : StrMap) (k : String) : Bool := m.any (fun p => decide (p.1 = k))

/-- Property read, `undefined` as `none`. -/
def getKey (m : StrMap) (k : String) : Option String :=
  (m.find? (fun p => decide (p.1 = k))).map (·.2)

/-- Property read defaulted (used only under a `hasKey` guard). -/
def getKeyD (m : StrMap) (k : String) : String := (getKey m k).getD ""

/-- Property assignment: replaces in place when the key exists, appends
otherwise (JavaScript object insertion-order semantics). -/
def setKey (m : StrMap) (k v : String) : StrMap :=
  if hasKey m k then m.map (fun p => if p.1 = k then (k, v) else p) else m ++ [(k, v)]

/-- `delete obj[k]`. -/
def delKey (m : StrMap) (k : String) : StrMap := m.filter (fun p => !(decide (p.1 = k)))

/-- `Object.getOwnPropertyNames`. -/
def keysOf (m : StrMap) : List String := m.map (·.1)

/-- Boolean key-uniqueness check for records and target lists. -/
def nodupB : List String → Bool
  | [] => true
  | x :: xs => !(xs.contains x) && nodupB xs

/-! ### Style data model (document/style.ts interface as used by the renderer) -/

/-- One sub-style declaration block: a render target kind and its
property→value map. -/
structure SubStyle where
  target : String
  values : StrMap
  deriving DecidableEq

/-- Paragraph-level properties of a style; the splitter only consults
`pageBreakBefore`. -/
structure ParagraphProps where
  pageBreakBefore : Bool
  deriving DecidableEq

/-- A style definition as consumed by `processStyles`. -/
structure IDomStyle where
  id : Option String
  target : String
  basedOn : Option String
  linked : Option String
  isDefault : Bool
  basedOnResolved : Bool
  cssName : String
  styles : List SubStyle
  paragraphProps : Option ParagraphProps
  deriving DecidableEq

/-- Theme font entry (`latinTypeface` may be absent). -/
structure ThemeFont where
  latinTypeface : Option String
  deriving DecidableEq

/-- Theme font scheme; either font may be absent. -/
structure FontScheme where
  majorFont : Option ThemeFont
  minorFont : Option ThemeFont
  deriving DecidableEq

/-- Document theme (the `fontScheme` may be absent). -/
structure Theme where
  fontScheme : Option FontScheme
  deriving DecidableEq

/-- The theme part of the package; `theme` itself may be absent. -/
structure ThemePart where
  theme : Option Theme
  deriving DecidableEq

/-- JavaScript string truthiness for an optional string: `undefined` and the
empty string are falsy. -/
def strTruthy : Option String → Bool
  | none => false
  | some s => decide (s ≠ "")

/-! ### copyStyleProperties / copyStyle (html-renderer.ts lines 242-261, 1156-1168) -/

/-- `copyStyleProperties(input, output, attrs, overideExistingEntries)`:
copies properties of `input` into `output`, only filling missing keys unless
`ov` is set; a `none` input returns `output` unchanged, a `none` output starts
from an empty object, `none` attrs defaults to all keys of `input`. -/
def copyStyleProperties (input : Option StrMap) (output : Option StrMap)
    (attrs : Option (List String)) (ov : Bool) : Option StrMap :=
  match input with
  | none => output
  | some inp =>
    let out0 := match output with | none => [] | some o => o
    let keys := match attrs with | none => keysOf inp | some a => a
    some (keys.foldl (fun out k =>
      if hasKey inp k && (ov || !hasKey out k) then setKey out k (getKeyD inp k) else out) out0)

/-- Replaces the first list entry satisfying `p` by `f` of it. -/
def updateFirst (p : SubStyle → Bool) (f : SubStyle → SubStyle) : List SubStyle → List SubStyle
  | [] => []
  | s :: rest => if p s then f s :: rest else s :: updateFirst p f rest

/-- `copyStyle(base, target, overideExistingEntries)`: merges every sub-style
block of `base` into `target`; a block whose target kind already exists on
`target` is merged into the first such block via `copyStyleProperties`,
otherwise the block is appended (clone = value copy). -/
def copyStyle (base target : IDomStyle) (ov : Bool) : IDomStyle :=
  base.styles.foldl (fun tgt bss =>
    if tgt.styles.any (fun x => decide (x.target = bss.target)) then
      let mergeBlock := fun (s0 : SubStyle) =>
        { s0 with values :=
            (copyStyleProperties (some bss.values) (some s0.values) none ov).getD [] }
      { tgt with styles :=
          updateFirst (fun x => decide (x.target = bss.target)) mergeBlock tgt.styles }
    else
      { tgt with styles := tgt.styles ++ [bss] }) target

/-! ### replaceAsciiTheme (html-renderer.ts lines 1170-1196) -/

/-- Outcome of running a piece of JavaScript: normal return, a thrown
exception, or a computation that does not complete (unbounded recursion). -/
inductive JsOutcome (α : Type) where
  | ok (value : α) : JsOutcome α
  | err (msg : String) : JsOutcome α
  | hang : JsOutcome α
  deriving DecidableEq

/-- The per-sub-style transformation of `replaceAsciiTheme`: resolves an
`asciiTheme` placeholder against the theme fonts, optionally injecting the
minor font as a default `font-family`. -/
def replaceAsciiThemeSub (minorLatin : Option String) (majorLatin : Option String)
    (addDefault : Bool) (ss : SubStyle) : SubStyle :=
  let value := getKey ss.values "asciiTheme"
  let hasFontFamily := hasKey ss.values "font-family"
  if !strTruthy value then
    if addDefault && !hasFontFamily && strTruthy minorLatin then
      { ss with values := setKey ss.values "font-family" (minorLatin.getD "") }
    else ss
  else
    let v1 := delKey ss.values "asciiTheme"
    if hasFontFamily then { ss with values := v1 }
    else if value = some "minorHAnsi" && strTruthy minorLatin then
      { ss with values := setKey v1 "font-family" (minorLatin.getD "") }
    else if value = some "majorHAnsi" && strTruthy majorLatin then
      { ss with values := setKey v1 "font-family" (majorLatin.getD "") }
    else { ss with values := v1 }

/-- `replaceAsciiTheme(style, addDefault)`: dereferences
`this.document.themePart.theme.fontScheme.minorFont.latinTypeface` without any
guard, so an absent theme part (or absent scheme pieces on that path) throws a
TypeError; otherwise rewrites every sub-style block. -/
def replaceAsciiTheme (themePart : Option ThemePart) (style : IDomStyle)
    (addDefault : Bool) : Except String IDomStyle :=
  match themePart with
  | none => .error "TypeError"
  | some tp =>
    match tp.theme with
    | none => .error "TypeError"
    | some th =>
      match th.fontScheme with
      | none => .error "TypeError"
      | some fs =>
        match fs.minorFont with
        | none => .error "TypeError"
        | some mf =>
          let minorLatin := mf.latinTypeface
          let majorLatin := fs.majorFont.bind (·.latinTypeface)
          .ok { style with styles :=
            style.styles.map (replaceAsciiThemeSub minorLatin majorLatin addDefault) }

/-! ### resolveBaseStyle (html-renderer.ts lines 1137-1154) -/

/-- Looks a style up by id in the styles store (the `stylesMap` object, whose
entries alias the styles array). -/
def findStyle (arr : List IDomStyle) (sid : String) : Option IDomStyle :=
  arr.find? (fun s => decide (s.id = some sid))

/-- Writes a style back to the store under its id. -/
def updateStyleById (arr : List IDomStyle) (sid : String) (s' : IDomStyle) : List IDomStyle :=
  match arr with
  | [] => []
  | s :: rest =>
    if s.id = some sid then s' :: rest else s :: updateStyleById rest sid s'

/-- `stylesMap[style.id] = style` — a style without id is only mutated through
its own reference, not stored under a map key we ever read again. -/
def storeStyle (arr : List IDomStyle) (s' : IDomStyle) : List IDomStyle :=
  match s'.id with
  | some sid => updateStyleById arr sid s'
  | none => arr

/-- `resolveBaseStyle(style, stylesMap)` with an explicit recursion budget:
looks up the base style, recursively resolves it first if unresolved, then
merges it into `style` with `copyStyle` and marks `style` resolved. The
source has no cycle detection, so a cyclic `basedOn` chain recurses without
bound; `none` models that the call does not complete within `fuel` nested
calls (for every fuel). -/
def resolveBaseStyleFuel : Nat → IDomStyle → List IDomStyle →
    Option (IDomStyle × List IDomStyle)
  | 0, _, _ => none
  | _fuel + 1, style, arr =>
    match style.basedOn with
    | none => some (style, arr)
    | some baseId =>
      match findStyle arr baseId with
      | none => some (style, arr)
      | some base =>
        if base.basedOnResolved then
          let style' := { copyStyle base style false with basedOnResolved := true }
          some (style', storeStyle arr style')
        else
          match resolveBaseStyleFuel _fuel base arr with
          | none => none
          | some (_, arr') =>
            let base' := (findStyle arr' baseId).getD base
            let styleCur := match style.id with
              | some i => (findStyle arr' i).getD style
              | none => style
            let style' := { copyStyle base' styleCur false with basedOnResolved := true }
            some (style', storeStyle arr' style')

/-! ### processClassName / escapeClassName (html-renderer.ts lines 165-170, 1104-1106) -/

/-- Replaces every maximal run of characters satisfying `p` by `rep`
(the semantics of a global regex replace of `[..]+`). -/
def collapseRuns (p : Char → Bool) (rep : String) (s : String) : String :=
  let rec go : List Char → Bool → List Char
    | [], _ => []
    | c :: rest, inRun =>
      if p c then (if inRun then go rest true else rep.data ++ go rest true)
      else c :: go rest false
  ⟨go s.data false⟩

/-- `escapeClassName`: spaces/dots collapse to `-`, ampersand runs to `and`;
safe-navigates an absent class name. -/
def escapeClassName (className : Option String) : Option String :=
  className.map (fun s => collapseRuns (fun c => decide (c = '&')) "and"
    (collapseRuns (fun c => decide (c = ' ') || decide (c = '.')) "-" s))

/-- `processClassName`: a falsy name yields the root class, otherwise the
namespaced `root_name`. -/
def processClassName (rootClass : String) (className : Option String) : String :=
  if !strTruthy className then rootClass
  else rootClass ++ "_" ++ className.getD ""

/-! ### processStyles (html-renderer.ts lines 172-201) -/

/-- Phase 1 of `processStyles`: every style with a non-null id is run through
`replaceAsciiTheme`, gets `basedOnResolved = !basedOn` and is indexed into the
map (the store is the array itself; entries alias map values). -/
def processStylesPhase1 (themePart : Option ThemePart) :
    List IDomStyle → Except String (List IDomStyle)
  | [] => .ok []
  | s :: rest =>
    if s.id.isSome then
      match replaceAsciiTheme themePart s false with
      | .error e => .error e
      | .ok s' =>
        match processStylesPhase1 themePart rest with
        | .error e => .error e
        | .ok rest' => .ok ({ s' with basedOnResolved := s'.basedOn.isNone } :: rest')
    else
      match processStylesPhase1 themePart rest with
      | .error e => .error e
      | .ok rest' => .ok (s :: rest')

/-- Phase 2 of `processStyles`: walk the styles with a `basedOn`, skipping the
already-resolved ones, resolving the rest via `resolveBaseStyle`. -/
def processStylesPhase2 (fuel : Nat) (arr : List IDomStyle) : JsOutcome (List IDomStyle) :=
  go arr (List.range arr.length)
where
  go (arr : List IDomStyle) : List Nat → JsOutcome (List IDomStyle)
    | [] => .ok arr
    | i :: rest =>
      match arr.get? i with
      | none => go arr rest
      | some s =>
        if s.basedOn.isSome && !s.basedOnResolved then
          match resolveBaseStyleFuel fuel s arr with
          | none => .hang
          | some (s', arr') => go (arr'.set i s') rest
        else go arr rest

/-- Phase 3 of `processStyles`: second ascii-theme pass with `addDefault`, and
CSS class-name assignment, on every style. -/
def processStylesPhase3 (themePart : Option ThemePart) (rootClass : String) :
    List IDomStyle → Except String (List IDomStyle)
  | [] => .ok []
  | s :: rest =>
    match replaceAsciiTheme themePart s true with
    | .error e => .error e
    | .ok s' =>
      match processStylesPhase3 themePart rootClass rest with
      | .error e => .error e
      | .ok rest' =>
        .ok ({ s' with cssName := processClassName rootClass (escapeClassName s'.id) } :: rest')

/-- Phases 4 and 5 of `processStyles`: aggregate all `isDefault` styles into a
synthetic override style (a clone of the first default with its blocks reset,
then every default merged in), and copy that override into every style whose
id is null with `overideExistingEntries = true`. An empty default list makes
`clone(defaultStyles[0])` blow up (a thrown error). -/
def processStylesDefaults (arr : List IDomStyle) : Except String (List IDomStyle) :=
  let defaults := arr.filter (·.isDefault)
  match defaults with
  | [] => .error "TypeError"
  | d0 :: _ =>
    let override0 := { d0 with styles := [] }
    let overrideStyle := defaults.foldl (fun acc d => copyStyle d acc false) override0
    .ok (arr.map (fun s => if s.id = none then copyStyle overrideStyle s true else s))

/-- `processStyles(styles)` with an explicit recursion budget for base-style
resolution: the four phases in source order. The result is the final state of
the styles array (the returned `stylesMap`'s values alias these entries). -/
def processStylesFuel (fuel : Nat) (themePart : Option ThemePart) (rootClass : String)
    (styles : List IDomStyle) : JsOutcome (List IDomStyle) :=
  match processStylesPhase1 themePart styles with
  | .error e => .err e
  | .ok arr1 =>
    match processStylesPhase2 fuel arr1 with
    | .hang => .hang
    | .err e => .err e
    | .ok arr2 =>
      match processStylesPhase3 themePart rootClass arr2 with
      | .error e => .err e
      | .ok arr3 =>
        match processStylesDefaults arr3 with
        | .error e => .err e
        | .ok arr4 => .ok arr4

/-! ### Renderer options (docx-preview Options as consulted by the renderer) -/

/-- The renderer configuration flags consulted by the embedded algorithms. -/
structure Options where
  breakPages : Bool
  ignoreLastRenderedPageBreak : Bool
  noStyleBlock : Bool
  debug : Bool
  deriving DecidableEq

/-! ### styleToString and the noCssDict (html-renderer.ts lines 33-47, 1042-1070) -/

/-- A pending inline-style change: camel-cased rule name and new value. -/
structure CssChangeObject where
  cssRuleCamel : String
  newVal : String
  deriving DecidableEq

/-- One selector's pending changes, keyed by css rule. -/
abbrev NoCssEntry := List (String × CssChangeObject)

/-- The `noCssDict` accumulator, keyed by selector. -/
abbrev NoCssDict := List (String × NoCssEntry)

/-- Generic JavaScript-object assignment on an association list. -/
def setAssoc {α : Type} (m : List (String × α)) (k : String) (v : α) : List (String × α) :=
  if m.any (fun p => decide (p.1 = k)) then
    m.map (fun p => if p.1 = k then (k, v) else p)
  else m ++ [(k, v)]

/-- The camel-casing regex replace of `-([a-z])` by the upper-cased letter. -/
def camelizeAux : List Char → List Char
  | [] => []
  | '-' :: c :: rest =>
    if decide ('a' ≤ c) && decide (c ≤ 'z') then c.toUpper :: camelizeAux rest
    else '-' :: camelizeAux (c :: rest)
  | c :: rest => c :: camelizeAux rest

/-- The global replace of the regex `-([a-z])` by the upper-cased letter,
as applied to css rule names. -/
def camelize (s : String) : String := ⟨camelizeAux s.data⟩

/-- `styleToString(selectors, values, cssText)`: without `noStyleBlock` it
renders a css rule block as text and leaves the dictionary alone; with
`noStyleBlock` it records every value in `noCssDict` per comma-split selector
and returns the empty string. -/
def styleToString (opts : Options) (dict : NoCssDict) (selectors : String)
    (values : StrMap) (cssText : Option String) : NoCssDict × String :=
  if !opts.noStyleBlock then
    (dict,
      selectors ++ " \x7b\r\n" ++
      String.join (values.map (fun p => "  " ++ p.1 ++ ": " ++ p.2 ++ ";\r\n")) ++
      cssText.getD "" ++ "\x7d\r\n")
  else
    let splits := selectors.splitOn ", "
    ((splits.foldl (fun d split =>
      let entry := ((d.find? (fun p => decide (p.1 = split))).map (·.2)).getD []
      let entry' := values.foldl (fun e p => setAssoc e p.1 ⟨camelize p.1, p.2⟩) entry
      setAssoc d split entry') dict), "")

/-! ### Decimal rendering of numbers (template-string interpolation of indices) -/

/-- A single decimal digit character. -/
def digitChar : Nat → Char
  | 0 => '0' | 1 => '1' | 2 => '2' | 3 => '3' | 4 => '4'
  | 5 => '5' | 6 => '6' | 7 => '7' | 8 => '8' | _ => '9'

/-- Big-endian decimal digits with a structural budget (the budget is always
sufficient at `n + 1`). -/
def natDigits : Nat → Nat → List Char
  | 0, _ => []
  | f + 1, n => if n < 10 then [digitChar n] else natDigits f (n / 10) ++ [digitChar (n % 10)]

/-- Decimal rendering of a natural number, as template-string interpolation
renders a nonnegative integer. -/
def natDecimal (n : Nat) : String := ⟨natDigits (n + 1) n⟩

/-- Decimal rendering of an integer (negative values rendered with `-`). -/
def intDecimal (i : Int) : String :=
  if i < 0 then "-" ++ natDecimal i.natAbs else natDecimal i.toNat

/-! ### Numbering compilation (html-renderer.ts lines 621-680, 1038-1040, 1072-1102) -/

/-- `numberingClass(id, lvl)`. -/
def numberingClass (rootClass id : String) (lvl : Nat) : String :=
  rootClass ++ "-num-" ++ id ++ "-" ++ natDecimal lvl

/-- `numberingCounter(id, lvl)`: the counter name for a numbering id and a
0-based level index. -/
def numberingCounter (rootClass id : String) (lvl : Nat) : String :=
  rootClass ++ "-num-" ++ id ++ "-" ++ natDecimal lvl

/-- `numberingCounter` as reached from `levelTextToContent`, where the parsed
placeholder index minus one may be negative. -/
def numberingCounterI (rootClass id : String) (lvl : Int) : String :=
  rootClass ++ "-num-" ++ id ++ "-" ++ intDecimal lvl

/-- `numFormatToCssValue`: the fixed mapping with pass-through for
unrecognized formats. -/
def numFormatToCssValue (format : String) : String :=
  if format = "none" then "none"
  else if format = "bullet" then "disc"
  else if format = "decimal" then "decimal"
  else if format = "lowerLetter" then "lower-alpha"
  else if format = "upperLetter" then "upper-alpha"
  else if format = "lowerRoman" then "lower-roman"
  else if format = "upperRoman" then "upper-roman"
  else format

/-- Splits a maximal leading digit run off a character list. -/
def takeDigits : List Char → List Char × List Char
  | [] => ([], [])
  | c :: rest =>
    if c.isDigit then
      let (ds, r) := takeDigits rest
      (c :: ds, r)
    else ([], c :: rest)

/-- The global replace of `%\d*` in a level-text template: each placeholder
becomes a quoted `counter(name, format)` reference, where the counter level is
the parsed digits minus one (`NaN` when no digits follow the percent sign,
exactly as `parseInt` propagates). Budget-structural; the budget is always
sufficient at one past the text length. -/
def substPlaceholders (rootClass id numformat : String) : Nat → List Char → List Char
  | 0, _ => []
  | _, [] => []
  | f + 1, c :: rest =>
    if c = '%' then
      let (ds, r) := takeDigits rest
      let name :=
        if ds.isEmpty then rootClass ++ "-num-" ++ id ++ "-NaN"
        else numberingCounterI rootClass id (((⟨ds⟩ : String).toNat?.getD 0 : Int) - 1)
      ("\"counter(" ++ name ++ ", " ++ numformat ++ ")\"").data ++
        substPlaceholders rootClass id numformat f r
    else c :: substPlaceholders rootClass id numformat f rest

/-- `levelTextToContent(text, suff, id, numformat)`. -/
def levelTextToContent (rootClass : String) (text : String) (suff : Option String)
    (id numformat : String) : String :=
  let suffTxt := if suff = some "tab" then "\\9" else if suff = some "space" then "\\a0" else ""
  let result : String := ⟨substPlaceholders rootClass id numformat (text.length + 1) text.data⟩
  "\"" ++ result ++ suffTxt ++ "\""

/-- A bullet glyph reference on a numbering level. -/
structure NumberingBullet where
  src : String
  style : Option String
  deriving DecidableEq

/-- One numbering entry as consumed by `renderNumbering`. -/
structure IDomNumbering where
  id : String
  level : Nat
  bullet : Option NumberingBullet
  levelText : Option String
  suff : Option String
  format : String
  pStyle : Option StrMap
  rStyle : Option StrMap
  pStyleName : Option String
  deriving DecidableEq

/-- JavaScript object-literal spread: start from the listed entries, then the
spread object's entries override or append (nothing for `undefined`). -/
def spreadInto (base : StrMap) (extra : Option StrMap) : StrMap :=
  match extra with
  | none => base
  | some e => e.foldl (fun m p => setKey m p.1 p.2) base

/-- The per-entry step of `renderNumbering`: emits the bullet or counter rules
and the base list-item rule, threading the `noCssDict` state and accumulating
root-level counter names. The asynchronous bullet-image load appends a
separate style element later and never touches the returned rule text. -/
def renderNumberingStep (opts : Options) (rootClass : String)
    (acc : NoCssDict × String × List String) (num : IDomNumbering) :
    NoCssDict × String × List String :=
  let dict := acc.1
  let styleText := acc.2.1
  let rootCounters := acc.2.2
  let selector := "p." ++ numberingClass rootClass num.id num.level
  match num.bullet with
  | some b =>
    let variable0 := ("--" ++ rootClass ++ "-" ++ b.src).toLower
    let r1 := styleToString opts dict (selector ++ ":before")
      [("content", "' '"), ("display", "inline-block"),
       ("background", "var(" ++ variable0 ++ ")")] b.style
    let r2 := styleToString opts r1.1 selector
      (spreadInto [("display", "list-item"), ("list-style-position", "inside"),
        ("list-style-type", "none")] num.pStyle) none
    (r2.1, styleText ++ r1.2 ++ r2.2, rootCounters)
  | none =>
    if strTruthy num.levelText then
      let counter := numberingCounter rootClass num.id num.level
      let rA :=
        if num.level > 0 then
          styleToString opts dict
            ("p." ++ numberingClass rootClass num.id (num.level - 1))
            [("counter-reset", counter)] none
        else (dict, "")
      let rootCounters' :=
        if num.level > 0 then rootCounters else rootCounters ++ [counter]
      let rB := styleToString opts rA.1 (selector ++ ":before")
        (spreadInto
          [("content", levelTextToContent rootClass (num.levelText.getD "") num.suff num.id
              (numFormatToCssValue num.format)),
           ("counter-increment", counter)] num.rStyle) none
      let rC := styleToString opts rB.1 selector
        (spreadInto [("display", "list-item"), ("list-style-position", "inside"),
          ("list-style-type", "none")] num.pStyle) none
      (rC.1, styleText ++ rA.2 ++ rB.2 ++ rC.2, rootCounters')
    else
      let listStyleType := numFormatToCssValue num.format
      let r1 := styleToString opts dict selector
        (spreadInto [("display", "list-item"), ("list-style-position", "inside"),
          ("list-style-type", listStyleType)] num.pStyle) none
      (r1.1, styleText ++ r1.2, rootCounters)

/-- `renderNumbering(numberings, styleContainer)`: folds the entries in input
order, then emits one rule resetting all accumulated root counters. Returns
the updated `noCssDict` and the generated rule text. -/
def renderNumbering (opts : Options) (rootClass : String) (dict0 : NoCssDict)
    (nums : List IDomNumbering) : NoCssDict × String :=
  let acc := nums.foldl (renderNumberingStep opts rootClass) (dict0, "", [])
  if acc.2.2.isEmpty then (acc.1, acc.2.1)
  else
    let r := styleToString opts acc.1 ("." ++ rootClass ++ "-wrapper")
      [("counter-reset", String.intercalate " " acc.2.2)] none
    (r.1, acc.2.1 ++ r.2)

/-! ### Content elements and sections (document/dom.ts, document/section.ts) -/

/-- The element kinds the splitter distinguishes. -/
inductive DomType where
  | paragraph | run | brk | bookmarkStart | bookmarkEnd | text | table | other
  deriving DecidableEq

/-- Section properties: the identity used for page-within-section counting and
the computed render counter, plus an uninterpreted geometry payload standing
for page size, margins, columns and header/footer references. -/
structure SectionProperties where
  id : Option String
  pageWithinSection : Nat
  geometry : String
  deriving DecidableEq

/-- A content element. Absent fields are `none`; `children` distinguishes a
missing list from an empty one, as the splitter tests both. `breakKind` is the
`break` field of a break element, `styleName` and `sectionProps` are the
paragraph fields consulted during splitting. -/
inductive Element where
  | mk (etype : DomType) (breakKind : Option String) (styleName : Option String)
       (sectionProps : Option SectionProperties) (children : Option (List Element)) : Element

/-- Element kind accessor. -/
def Element.etype : Element → DomType
  | .mk t _ _ _ _ => t

/-- The `break` field of a break element. -/
def Element.breakKind : Element → Option String
  | .mk _ b _ _ _ => b

/-- The paragraph style-name reference. -/
def Element.styleName : Element → Option String
  | .mk _ _ s _ _ => s

/-- The embedded section properties of a section-terminating paragraph. -/
def Element.sectionProps : Element → Option SectionProperties
  | .mk _ _ _ sp _ => sp

/-- The owned, ordered child list (or `none` for an absent one). -/
def Element.children : Element → Option (List Element)
  | .mk _ _ _ _ c => c

/-- Rebuilds an element with a new child list (the in-place assignment
`elem.children = ...`). -/
def Element.withChildren : Element → Option (List Element) → Element
  | .mk t b s sp _, c => .mk t b s sp c

/-- A section produced by splitting: its elements and the governing
properties. -/
structure Section where
  sectProps : Option SectionProperties
  elements : List Element

/-! ### splitBySection (html-renderer.ts lines 363-486, 1198-1222) -/

/-- `isPageBreakElement(elem)`. -/
def isPageBreakElement (opts : Options) (e : Element) : Bool :=
  if e.etype ≠ DomType.brk then false
  else if e.breakKind = some "lastRenderedPageBreak" then !opts.ignoreLastRenderedPageBreak
  else e.breakKind = some "page"

/-- `findIndex` with the JavaScript `-1` not-found sentinel. -/
def findIdxInt {α : Type} (p : α → Bool) (xs : List α) : Int :=
  match xs.findIdx? p with
  | some n => (n : Int)
  | none => -1

/-- The inner `r.children?.findIndex(isPageBreakElement) ?? -1`. -/
def runBreakIdx (opts : Options) (r : Element) : Int :=
  match r.children with
  | none => -1
  | some cs => findIdxInt (isPageBreakElement opts) cs

/-- The scan assigning `pBreakIndex`/`rBreakIndex`: the first paragraph child
whose run children contain a page break, with the break's index inside that
run; `(-1, -1)` when there is none. -/
def findBreakAux (opts : Options) : List Element → Nat → Int × Int
  | [], _ => (-1, -1)
  | r :: rs, i =>
    let rb := runBreakIdx opts r
    if rb ≠ -1 then ((i : Int), rb) else findBreakAux opts rs (i + 1)

/-- The break search of `splitBySection` for one paragraph, guarded by
`options.breakPages && p.children`. -/
def findBreak (opts : Options) (p : Element) : Int × Int :=
  if opts.breakPages then
    match p.children with
    | none => (-1, -1)
    | some runs => findBreakAux opts runs 0
  else (-1, -1)

/-- The widening loop: while the child before the break index is a
bookmark-start, move the break index back. -/
def widenOverBookmarks (cs : List Element) : Nat → Nat
  | 0 => 0
  | n + 1 =>
    match cs.get? n with
    | some e => if e.etype = DomType.bookmarkStart then widenOverBookmarks cs n else n + 1
    | none => n + 1

/-- Whether an element contributes rendered content: some run child of it has
a child that is not a bookmark marker or a break. -/
def elementHasContent (e : Element) : Bool :=
  (e.children.getD []).any (fun r =>
    r.etype = DomType.run &&
    (r.children.getD []).any (fun c =>
      !(c.etype = DomType.bookmarkStart || c.etype = DomType.bookmarkEnd ||
        c.etype = DomType.brk)))

/-- `isFirstRenderElement(elements)`: true when every element before the last
contributes no rendered content. -/
def isFirstRenderElement (elements : List Element) : Bool :=
  if elements.length = 1 then true
  else elements.dropLast.all (fun e => !elementHasContent e)

/-- The paragraph-style `pageBreakBefore` lookup of `splitBySection`
(`this.styleMap && styleName ? this.styleMap[styleName] : null`, then
`s?.paragraphProps?.pageBreakBefore`). -/
def pageBreakBeforeOf (styleMap : Option (List (String × IDomStyle))) (e : Element) : Bool :=
  match styleMap, e.styleName with
  | some m, some sn =>
    if sn = "" then false
    else
      match (m.find? (fun p => decide (p.1 = sn))).map (·.2) with
      | some s =>
        match s.paragraphProps with
        | some pp => pp.pageBreakBefore
        | none => false
      | none => false
  | _, _ => false

/-- The loop state of `splitBySection`: the committed sections, the open
current section, and the loop-carried `sectProps` variable. -/
structure SplitState where
  committed : List Section
  current : Section
  sectPropsVar : Option SectionProperties

/-- Deep copy of optional section properties (`clone` from utils.ts).
Modelled from the spec: utils.ts is not under src/; the spec describes section
properties as copied by value into sections, and `clone` is applied to
possibly-absent values on every paragraph, so on immutable values it is the
identity and an absent value stays absent. -/
def cloneOpt (x : Option SectionProperties) : Option SectionProperties := x

/-- The widened `pBreakIndex` of a paragraph (`-1` when no break applies). -/
def paraPb (opts : Options) (elem : Element) : Int :=
  let fb := findBreak opts elem
  if fb.1 > 0 then ((widenOverBookmarks (elem.children.getD []) fb.1.toNat : Nat) : Int)
  else fb.1

/-- The `rBreakIndex` of a paragraph. -/
def paraRb (opts : Options) (elem : Element) : Int := (findBreak opts elem).2

/-- The paragraph child at the (widened) break index. -/
def paraBreakRun (opts : Options) (elem : Element) : Element :=
  ((elem.children.getD []).get? (paraPb opts elem).toNat).getD elem

/-- Whether the break run itself is split (`rBreakIndex < breakRun.children.length - 1`). -/
def paraSplitRun (opts : Options) (elem : Element) : Bool :=
  paraRb opts elem < (((paraBreakRun opts elem).children.getD []).length : Int) - 1

/-- Whether the paragraph is split in place: the guards of lines 422-433 (a
positive in-range break index, a break run with a child list, and content
after the break or a mid-run break). -/
def paraDoSplit (opts : Options) (elem : Element) : Bool :=
  (paraPb opts elem > 0 && elem.children.isSome &&
    ((elem.children.getD []).length : Int) > paraPb opts elem) &&
  (paraBreakRun opts elem).children.isSome &&
  (paraPb opts elem < ((elem.children.getD []).length : Int) - 1 || paraSplitRun opts elem)

/-- The final value of a paragraph after its loop iteration: unchanged, or
truncated in place to the pre-break children (plus the pre-break part of a
split run). -/
def paraElemFinal (opts : Options) (elem : Element) : Element :=
  if paraDoSplit opts elem then
    if paraSplitRun opts elem then
      elem.withChildren (some ((elem.children.getD []).take (paraPb opts elem).toNat ++
        [(paraBreakRun opts elem).withChildren
          (some (((paraBreakRun opts elem).children.getD []).take (paraRb opts elem).toNat))]))
    else elem.withChildren (some ((elem.children.getD []).take (paraPb opts elem).toNat))
  else elem

/-- The fragment paragraph holding the children from the break onward (with
the break run reduced to its post-break children in the split-run case). -/
def paraNewParagraph (opts : Options) (elem : Element) : Element :=
  if paraSplitRun opts elem then
    elem.withChildren (some
      ((paraBreakRun opts elem).withChildren
        (some (((paraBreakRun opts elem).children.getD []).drop (paraRb opts elem).toNat)) ::
       (elem.children.getD []).drop ((paraPb opts elem).toNat + 1)))
  else elem.withChildren (some ((elem.children.getD []).drop (paraPb opts elem).toNat))

/-- One iteration of the `splitBySection` element loop. Returns the new state
together with the element's final value, reflecting the in-place truncation
`elem.children = children.slice(0, pBreakIndex)` (and the appended partial
run) that the loop performs on a split paragraph: every live reference to the
element — the input array's slot and the section that already holds it —
observes that same final value. -/
def splitStep (styleMap : Option (List (String × IDomStyle))) (opts : Options)
    (st : SplitState) (elem : Element) : SplitState × Element :=
  if elem.etype ≠ DomType.paragraph then
    ({ st with current := { st.current with elements := st.current.elements ++ [elem] } }, elem)
  else
    let pbb := pageBreakBeforeOf styleMap elem
    let pbbCommit : List Section :=
      if pbb then [{ st.current with sectProps := cloneOpt st.sectPropsVar }] else []
    let current0 : Section := if pbb then { sectProps := none, elements := [] } else st.current
    let sp := cloneOpt elem.sectionProps
    let pb := paraPb opts elem
    let willClose := sp.isSome ||
      (pb > -1 &&
        pb > (if isFirstRenderElement (current0.elements ++ [elem]) then 0 else -1))
    let doSplit := paraDoSplit opts elem
    let elemFinal := paraElemFinal opts elem
    let holder : Section := { current0 with elements := current0.elements ++ [elemFinal] }
    let holder1 := if sp.isSome then { holder with sectProps := cloneOpt sp } else holder
    let holderAdj :=
      if willClose && pb = 0 then { holder1 with elements := holder1.elements.dropLast }
      else holder1
    let closeCommit : List Section := if willClose then [holderAdj] else []
    let newCurrentBase : Section :=
      if pb = 0 then { sectProps := none, elements := [elemFinal] }
      else { sectProps := none, elements := [] }
    let current2 :=
      if willClose then
        (if doSplit then
          { newCurrentBase with
              elements := newCurrentBase.elements ++ [paraNewParagraph opts elem] }
         else newCurrentBase)
      else holder
    ({ committed := st.committed ++ (pbbCommit ++ closeCommit), current := current2,
       sectPropsVar := sp }, elemFinal)

/-- The backward-fill pass: walking from the end, a section with unset
properties inherits the properties of the nearest following section that has
them. -/
def backwardFillAux : List Section → Option SectionProperties → List Section
  | [], _ => []
  | s :: rest, cur =>
    match s.sectProps with
    | none => { s with sectProps := cloneOpt cur } :: backwardFillAux rest cur
    | some sp => s :: backwardFillAux rest (some sp)
def backwardFill (sections : List Section) : List Section :=
  (backwardFillAux sections.reverse none).reverse

/-- `addSectionInnerPageNums`: a forward walk assigning 1-based
page-within-section counters, resetting whenever the section-properties id
changes. -/
def addSectionInnerPageNumsAux : List Section → Option String → Nat → List Section
  | [], _, _ => []
  | s :: rest, lastId, cnt =>
    match s.sectProps with
    | none => s :: addSectionInnerPageNumsAux rest lastId cnt
    | some sp =>
      if sp.id ≠ lastId then
        { s with sectProps := some { sp with pageWithinSection := 1 } } ::
          addSectionInnerPageNumsAux rest sp.id 1
      else
        { s with sectProps := some { sp with pageWithinSection := cnt + 1 } } ::
          addSectionInnerPageNumsAux rest lastId (cnt + 1)
def addSectionInnerPageNums (sections : List Section) : List Section :=
  addSectionInnerPageNumsAux sections (some "") 0

/-- `splitBySection(elements, lastSectionProps)`: the forward element loop,
the trailing-properties assignment from the document body, the backward fill
and the page-number pass. The second component is the final state of the
input sequence, recording the in-place paragraph truncations the loop
performs. -/
def splitBySection (styleMap : Option (List (String × IDomStyle))) (opts : Options)
    (elements : List Element) (lastSectionProps : Option SectionProperties) :
    List Section × List Element :=
  let init : SplitState :=
    { committed := [], current := { sectProps := none, elements := [] }, sectPropsVar := none }
  let res := elements.foldl
    (fun (acc : SplitState × List Element) e =>
      let r := splitStep styleMap opts acc.1 e
      (r.1, acc.2 ++ [r.2]))
    (init, [])
  let st := res.1
  let finals := res.2
  let resultA := st.committed ++ [{ st.current with sectProps := lastSectionProps }]
  (addSectionInnerPageNums (backwardFill resultA), finals)

/-! ## Theorems -/

/-! ### C1: cyclic basedOn chains -/

/-- A theme part whose latin typefaces are empty, so the ascii-theme passes
leave styles untouched. -/
def themeEmptyFonts : ThemePart :=
  ⟨some ⟨some ⟨none, some ⟨some ""⟩⟩⟩⟩

/-- Style `A`, based on `B`. -/
def styleCycA : IDomStyle :=
  { id := some "A", target := "p", basedOn := some "B", linked := none, isDefault := true,
    basedOnResolved := false, cssName := "", styles := [], paragraphProps := none }

/-- Style `B`, based on `A`: together with `styleCycA` a two-cycle. -/
def styleCycB : IDomStyle :=
  { id := some "B", target := "p", basedOn := some "A", linked := none, isDefault := false,
    basedOnResolved := false, cssName := "", styles := [], paragraphProps := none }

/-- The style sheet whose `basedOn` graph is the cycle `A → B → A`. -/
def cycArr : List IDomStyle := [styleCycA, styleCycB]

theorem resolveCyc_hangs (fuel : Nat) :
    resolveBaseStyleFuel fuel styleCycA cycArr = none ∧
    resolveBaseStyleFuel fuel styleCycB cycArr = none := by
  induction fuel with
  | zero => exact ⟨rfl, rfl⟩
  | succ n ih =>
    have eA : resolveBaseStyleFuel (n + 1) styleCycA cycArr =
        (match resolveBaseStyleFuel n styleCycB cycArr with
         | none => none
         | some (_, arr') =>
           let base' := (findStyle arr' "B").getD styleCycB
           let styleCur := (findStyle arr' "A").getD styleCycA
           let style' := { copyStyle base' styleCur false with basedOnResolved := true }
           some (style', storeStyle arr' style')) := rfl
    have eB : resolveBaseStyleFuel (n + 1) styleCycB cycArr =
        (match resolveBaseStyleFuel n styleCycA cycArr with
         | none => none
         | some (_, arr') =>
           let base' := (findStyle arr' "A").getD styleCycA
           let styleCur := (findStyle arr' "B").getD styleCycB
           let style' := { copyStyle base' styleCur false with basedOnResolved := true }
           some (style', storeStyle arr' style')) := rfl
    rw [eA, eB, ih.1, ih.2]
    exact ⟨rfl, rfl⟩

/-- C1: For a style sheet with a cyclic `basedOn` chain (`A` based on `B` and
`B` based on `A`), `resolveBaseStyle` does not terminate: for every recursion
budget, resolving either style fails to complete, and `processStyles` on that
style sheet diverges instead of detecting the cycle and resolving the styles
from their own declarations. -/
theorem c1_cyclic_basedOn_resolution_hangs (fuel : Nat) :
    resolveBaseStyleFuel fuel styleCycA cycArr = none ∧
    resolveBaseStyleFuel fuel styleCycB cycArr = none ∧
    processStylesFuel fuel (some themeEmptyFonts) "docx" cycArr = .hang := by
  obtain ⟨hA, hB⟩ := resolveCyc_hangs fuel
  refine ⟨hA, hB, ?_⟩
  have e2 : processStylesPhase2 fuel cycArr =
      (match resolveBaseStyleFuel fuel styleCycA cycArr with
       | none => JsOutcome.hang
       | some (s', arr') => processStylesPhase2.go fuel (arr'.set 0 s') [1]) := rfl
  have e0 : processStylesFuel fuel (some themeEmptyFonts) "docx" cycArr =
      (match processStylesPhase2 fuel cycArr with
       | .hang => JsOutcome.hang
       | .err e => .err e
       | .ok arr2 =>
         match processStylesPhase3 (some themeEmptyFonts) "docx" arr2 with
         | .error e => .err e
         | .ok arr3 =>
           match processStylesDefaults arr3 with
           | .error e => .err e
           | .ok arr4 => .ok arr4) := rfl
  rw [e0, e2, hA]

/-! ### C5: counter-name uniqueness and compilation stability -/

/-- Digit characters are never the dash. -/
theorem digitChar_ne_dash (d : Nat) : digitChar d ≠ '-' := by
  rcases d with _ | _ | _ | _ | _ | _ | _ | _ | _ | d
  · decide
  · decide
  · decide
  · decide
  · decide
  · decide
  · decide
  · decide
  · decide
  · show ('9' : Char) ≠ '-'
    decide

/-- The numeric value of a digit character. -/
theorem digitChar_toNat (d : Nat) (h : d < 10) : (digitChar d).toNat = 48 + d := by
  rcases d with _ | _ | _ | _ | _ | _ | _ | _ | _ | d
  · decide
  · decide
  · decide
  · decide
  · decide
  · decide
  · decide
  · decide
  · decide
  · have : d = 0 := by omega
    subst this; decide

theorem natDigits_ne_dash (f n : Nat) : ∀ c ∈ natDigits f n, c ≠ '-' := by
  induction f generalizing n with
  | zero => intro c hc; simp [natDigits] at hc
  | succ f ih =>
    intro c hc
    rw [natDigits] at hc
    by_cases h : n < 10
    · rw [if_pos h] at hc
      simp at hc
      subst hc
      exact digitChar_ne_dash n
    · rw [if_neg h] at hc
      rcases List.mem_append.mp hc with h1 | h1
      · exact ih _ c h1
      · simp at h1; subst h1; exact digitChar_ne_dash _

/-- The decimal value of a digit-character list. -/
def digitsVal (l : List Char) : Nat := l.foldl (fun a c => a * 10 + (c.toNat - 48)) 0

theorem digitsVal_append_digit (l : List Char) (c : Char) :
    digitsVal (l ++ [c]) = digitsVal l * 10 + (c.toNat - 48) := by
  simp [digitsVal, List.foldl_append]

theorem digitsVal_natDigits (f n : Nat) (h : n < f) : digitsVal (natDigits f n) = n := by
  induction f generalizing n with
  | zero => omega
  | succ f ih =>
    rw [natDigits]
    by_cases h10 : n < 10
    · rw [if_pos h10]
      simp [digitsVal, digitChar_toNat n h10]
    · rw [if_neg h10]
      rw [digitsVal_append_digit, ih (n / 10) (by omega)]
      rw [digitChar_toNat (n % 10) (by omega)]
      omega

theorem natDecimal_injective {m n : Nat} (h : natDecimal m = natDecimal n) : m = n := by
  have hd : (natDecimal m).data = (natDecimal n).data := by rw [h]
  have hm := digitsVal_natDigits (m + 1) m (by omega)
  have hn := digitsVal_natDigits (n + 1) n (by omega)
  simp only [natDecimal] at hd
  rw [← hm, ← hn, hd]

theorem natDecimal_ne_dash (n : Nat) : ∀ c ∈ (natDecimal n).data, c ≠ '-' :=
  natDigits_ne_dash (n + 1) n

/-- Splitting a character list at its first dash is unambiguous when neither
prefix contains a dash. -/
theorem first_dash_split : ∀ (u v p q : List Char), '-' ∉ u → '-' ∉ v →
    u ++ '-' :: p = v ++ '-' :: q → u = v ∧ p = q := by
  intro u
  induction u with
  | nil =>
    intro v p q _ hv h
    cases v with
    | nil => simpa using h
    | cons d v' =>
      simp only [List.nil_append, List.cons_append, List.cons.injEq] at h
      exact absurd (h.1 ▸ List.mem_cons_self d v') (by simpa [← h.1] using hv)
  | cons c u' ih =>
    intro v p q hu hv h
    cases v with
    | nil =>
      simp only [List.cons_append, List.nil_append, List.cons.injEq] at h
      exact absurd (h.1 ▸ List.mem_cons_self c u') (by simpa [h.1] using hu)
    | cons d v' =>
      simp only [List.cons_append, List.cons.injEq] at h
      obtain ⟨rfl, h2⟩ := h
      have := ih v' p q (fun hm => hu (List.mem_cons_of_mem _ hm))
        (fun hm => hv (List.mem_cons_of_mem _ hm)) h2
      exact ⟨by rw [this.1], this.2⟩

/-- Splitting a character list at its last dash is unambiguous when neither
suffix contains a dash. -/
theorem last_dash_split (a b x y : List Char) (hx : '-' ∉ x) (hy : '-' ∉ y)
    (h : a ++ '-' :: x = b ++ '-' :: y) : a = b ∧ x = y := by
  have hr : x.reverse ++ '-' :: a.reverse = y.reverse ++ '-' :: b.reverse := by
    have := congrArg List.reverse h
    simpa [List.reverse_append] using this
  have := first_dash_split x.reverse y.reverse a.reverse b.reverse
    (by simpa using hx) (by simpa using hy) hr
  constructor
  · have := this.2
    simpa using congrArg List.reverse this
  · have := this.1
    simpa using congrArg List.reverse this

theorem numberingCounter_injective (c id1 id2 : String) (l1 l2 : Nat)
    (h : numberingCounter c id1 l1 = numberingCounter c id2 l2) :
    id1 = id2 ∧ l1 = l2 := by
  have hd := congrArg String.data h
  simp only [numberingCounter, String.data_append] at hd
  have hd2 : id1.data ++ '-' :: (natDecimal l1).data =
      id2.data ++ '-' :: (natDecimal l2).data := by
    have hpre := List.append_cancel_left
      (by simpa [List.append_assoc] using hd :
        c.data ++ ("-num-".data ++ (id1.data ++ ("-".data ++ (natDecimal l1).data))) =
        c.data ++ ("-num-".data ++ (id2.data ++ ("-".data ++ (natDecimal l2).data))))
    have hpre2 := List.append_cancel_left hpre
    simpa using hpre2
  have hsplit := last_dash_split id1.data id2.data (natDecimal l1).data (natDecimal l2).data
    (fun hm => natDecimal_ne_dash l1 '-' hm rfl)
    (fun hm => natDecimal_ne_dash l2 '-' hm rfl) hd2
  refine ⟨?_, ?_⟩
  · exact congrArg String.mk hsplit.1
  · exact natDecimal_injective (congrArg String.mk hsplit.2)

/-- The rule text emitted by `styleToString` does not depend on the
`noCssDict` state threaded through it. -/
theorem styleToString_snd_indep (opts : Options) (d1 d2 : NoCssDict) (sel : String)
    (v : StrMap) (ct : Option String) :
    (styleToString opts d1 sel v ct).2 = (styleToString opts d2 sel v ct).2 := by
  cases h : opts.noStyleBlock <;> simp [styleToString, h]

/-- The text and root-counter components produced by one `renderNumbering`
step do not depend on the dictionary component of the accumulator. -/
theorem renderNumberingStep_snd_indep (opts : Options) (rootClass : String)
    (d1 d2 : NoCssDict) (t : String) (r : List String) (num : IDomNumbering) :
    (renderNumberingStep opts rootClass (d1, t, r) num).2 =
    (renderNumberingStep opts rootClass (d2, t, r) num).2 := by
  unfold renderNumberingStep
  cases num.bullet with
  | some b =>
    simp only []
    rw [styleToString_snd_indep opts d1 d2, styleToString_snd_indep opts
      (styleToString opts d1 _ _ _).1 (styleToString opts d2 _ _ _).1]
  | none =>
    simp only []
    by_cases hlt : strTruthy num.levelText
    · rw [if_pos hlt, if_pos hlt]
      by_cases hlv : num.level > 0
      · simp only [if_pos hlv]
        rw [styleToString_snd_indep opts d1 d2]
        rw [styleToString_snd_indep opts (styleToString opts d1 _ _ _).1
          (styleToString opts d2 _ _ _).1]
        rw [styleToString_snd_indep opts
          (styleToString opts (styleToString opts d1 _ _ _).1 _ _ _).1
          (styleToString opts (styleToString opts d2 _ _ _).1 _ _ _).1]
      · simp only [if_neg hlv]
        rw [styleToString_snd_indep opts d1 d2]
        rw [styleToString_snd_indep opts (styleToString opts d1 _ _ _).1
          (styleToString opts d2 _ _ _).1]
    · rw [if_neg hlt, if_neg hlt]
      rw [styleToString_snd_indep opts d1 d2]

/-- The text and root-counter components of the `renderNumbering` fold do not
depend on the threaded dictionary. -/
theorem renderNumberingFold_snd_indep (opts : Options) (rootClass : String)
    (nums : List IDomNumbering) :
    ∀ (d1 d2 : NoCssDict) (t : String) (r : List String),
    (nums.foldl (renderNumberingStep opts rootClass) (d1, t, r)).2 =
    (nums.foldl (renderNumberingStep opts rootClass) (d2, t, r)).2 := by
  induction nums with
  | nil => intro d1 d2 t r; rfl
  | cons num rest ih =>
    intro d1 d2 t r
    simp only [List.foldl_cons]
    have hstep := renderNumberingStep_snd_indep opts rootClass d1 d2 t r num
    have e1 : renderNumberingStep opts rootClass (d1, t, r) num =
        ((renderNumberingStep opts rootClass (d1, t, r) num).1,
         (renderNumberingStep opts rootClass (d1, t, r) num).2.1,
         (renderNumberingStep opts rootClass (d1, t, r) num).2.2) := rfl
    have e2 : renderNumberingStep opts rootClass (d2, t, r) num =
        ((renderNumberingStep opts rootClass (d2, t, r) num).1,
         (renderNumberingStep opts rootClass (d2, t, r) num).2.1,
         (renderNumberingStep opts rootClass (d2, t, r) num).2.2) := rfl
    rw [e1, e2]
    have ht : (renderNumberingStep opts rootClass (d1, t, r) num).2.1 =
        (renderNumberingStep opts rootClass (d2, t, r) num).2.1 := by
      rw [show (renderNumberingStep opts rootClass (d1, t, r) num).2.1 =
        ((renderNumberingStep opts rootClass (d1, t, r) num).2).1 from rfl, hstep]
    have hr : (renderNumberingStep opts rootClass (d1, t, r) num).2.2 =
        (renderNumberingStep opts rootClass (d2, t, r) num).2.2 := by
      rw [show (renderNumberingStep opts rootClass (d1, t, r) num).2.2 =
        ((renderNumberingStep opts rootClass (d1, t, r) num).2).2 from rfl, hstep]
    rw [ht, hr]
    exact ih _ _ _ _

/-- The rule text produced by `renderNumbering` does not depend on the
incoming `noCssDict` state. -/
theorem renderNumbering_snd_indep (opts : Options) (rootClass : String)
    (d1 d2 : NoCssDict) (nums : List IDomNumbering) :
    (renderNumbering opts rootClass d1 nums).2 =
    (renderNumbering opts rootClass d2 nums).2 := by
  unfold renderNumbering
  have hfold := renderNumberingFold_snd_indep opts rootClass nums d1 d2 "" []
  simp only []
  rw [show (nums.foldl (renderNumberingStep opts rootClass) (d1, "", [])).2.2 =
    ((nums.foldl (renderNumberingStep opts rootClass) (d1, "", [])).2).2 from rfl, hfold]
  by_cases h : (nums.foldl (renderNumberingStep opts rootClass) (d2, "", [])).2.2.isEmpty
  · rw [if_pos h, if_pos h]
  · rw [if_neg h, if_neg h]
    exact congrArg
      (fun s => (nums.foldl (renderNumberingStep opts rootClass) (d2, "", [])).2.1 ++ s)
      (styleToString_snd_indep opts
        (nums.foldl (renderNumberingStep opts rootClass) (d1, "", [])).1
        (nums.foldl (renderNumberingStep opts rootClass) (d2, "", [])).1 _ _ _)

/-- C5: the counter name generated by `numberingCounter` is injective in the
(numbering id, level) pair for a fixed root class name, and `renderNumbering`
is stable: rerunning it on identical input — even on the `noCssDict` state its
first run left behind — produces byte-identical rule text. -/
theorem c5_counter_names_unique_and_stable :
    (∀ (rootClass id1 id2 : String) (l1 l2 : Nat), (id1, l1) ≠ (id2, l2) →
      numberingCounter rootClass id1 l1 ≠ numberingCounter rootClass id2 l2) ∧
    (∀ (opts : Options) (rootClass : String) (dict : NoCssDict)
        (nums : List IDomNumbering),
      (renderNumbering opts rootClass (renderNumbering opts rootClass dict nums).1 nums).2 =
      (renderNumbering opts rootClass dict nums).2) := by
  constructor
  · intro rootClass id1 id2 l1 l2 hne h
    obtain ⟨h1, h2⟩ := numberingCounter_injective rootClass id1 id2 l1 l2 h
    exact hne (by rw [h1, h2])
  · intro opts rootClass dict nums
    exact renderNumbering_snd_indep opts rootClass _ dict nums

/-- Witness for C5 at a concrete input: the hypotheses of the uniqueness half
are discharged at the pairs `("1", 0)` and `("1-2", 3)` versus `("1-2-3", 1)`,
whose names must differ. -/
theorem c5_witness :
    numberingCounter "docx" "1" 0 ≠ numberingCounter "docx" "1-2" 3 ∧
    numberingCounter "docx" "1-2" 3 ≠ numberingCounter "docx" "1-2-3" 1 := by
  refine ⟨c5_counter_names_unique_and_stable.1 "docx" "1" "1-2" 0 3 (by decide), ?_⟩
  exact c5_counter_names_unique_and_stable.1 "docx" "1-2" "1-2-3" 3 1 (by decide)

/-! ### Splitter fixtures and step lemmas -/

/-- A manual page-break element. -/
def brkPage : Element := .mk .brk (some "page") none none none

/-- A plain text leaf. -/
def txtEl : Element := .mk .text none none none none

/-- A run with the given children. -/
def runOf (cs : List Element) : Element := .mk .run none none none (some cs)

/-- A bookmark-start marker.
Modelled from the spec: `BookmarkStartElement` (document/bookmark.ts) is not
under src/; spec §3 states every content element carries an owned, ordered
children list, so a bookmark marker carries an empty list rather than an
absent one. -/
def bookmarkEl : Element := .mk .bookmarkStart none none none (some [])

/-- A paragraph with the given style name, section properties and children. -/
def paraOf (sn : Option String) (sp : Option SectionProperties)
    (cs : Option (List Element)) : Element := .mk .paragraph none sn sp cs

/-- Options with manual page breaks honored. -/
def optsBreak : Options :=
  { breakPages := true, ignoreLastRenderedPageBreak := false,
    noStyleBlock := false, debug := false }

/-- Options with manual page breaks ignored. -/
def optsNoBreak : Options :=
  { breakPages := false, ignoreLastRenderedPageBreak := false,
    noStyleBlock := false, debug := false }

/-- Concrete section properties used by the splitter examples. -/
def propsS1 : SectionProperties := { id := some "S1", pageWithinSection := 0, geometry := "g1" }

/-- Concrete trailing document section properties. -/
def propsLast : SectionProperties := { id := some "L", pageWithinSection := 0, geometry := "gL" }

/-- A paragraph that only gets appended: no page-break-before style, no
embedded section properties and no manual break found. -/
theorem splitStep_plain (sm : Option (List (String × IDomStyle))) (opts : Options)
    (st : SplitState) (e : Element) (hp : e.etype = DomType.paragraph)
    (hpbb : pageBreakBeforeOf sm e = false) (hsp : e.sectionProps = none)
    (hfb : findBreak opts e = (-1, -1)) :
    splitStep sm opts st e =
      ({ committed := st.committed,
         current := { st.current with elements := st.current.elements ++ [e] },
         sectPropsVar := none }, e) := by
  have hpb : paraPb opts e = -1 := by unfold paraPb; rw [hfb]; rfl
  have hds : paraDoSplit opts e = false := by unfold paraDoSplit; rw [hpb]; rfl
  have hef : paraElemFinal opts e = e := by unfold paraElemFinal; rw [hds]; rfl
  unfold splitStep
  rw [if_neg (by simp [hp])]
  simp only [hpbb, hsp, hpb, hds, hef, Bool.false_eq_true, if_false, cloneOpt]
  norm_num

/-- A paragraph carrying embedded section properties (and no manual break)
closes the current section with those properties and opens a fresh one. -/
theorem splitStep_sectProps (sm : Option (List (String × IDomStyle))) (opts : Options)
    (st : SplitState) (e : Element) (S : SectionProperties)
    (hp : e.etype = DomType.paragraph) (hpbb : pageBreakBeforeOf sm e = false)
    (hsp : e.sectionProps = some S) (hfb : findBreak opts e = (-1, -1)) :
    splitStep sm opts st e =
      ({ committed := st.committed ++
           [{ sectProps := some S, elements := st.current.elements ++ [e] }],
         current := { sectProps := none, elements := [] },
         sectPropsVar := some S }, e) := by
  have hpb : paraPb opts e = -1 := by unfold paraPb; rw [hfb]; rfl
  have hds : paraDoSplit opts e = false := by unfold paraDoSplit; rw [hpb]; rfl
  have hef : paraElemFinal opts e = e := by unfold paraElemFinal; rw [hds]; rfl
  unfold splitStep
  rw [if_neg (by simp [hp])]
  simp only [hpbb, hsp, hpb, hds, hef, Bool.false_eq_true, if_false, cloneOpt]
  norm_num

/-- With `breakPages` off a paragraph is never split: the element's final
value is itself. -/
theorem splitStep_snd_noBreakPages (sm : Option (List (String × IDomStyle))) (opts : Options)
    (st : SplitState) (e : Element) (hbp : opts.breakPages = false) :
    (splitStep sm opts st e).2 = e := by
  unfold splitStep
  by_cases hp : e.etype ≠ DomType.paragraph
  · rw [if_pos hp]
  · rw [if_neg hp]
    have hfb : findBreak opts e = (-1, -1) := by unfold findBreak; rw [hbp]; rfl
    have hpb : paraPb opts e = -1 := by unfold paraPb; rw [hfb]; rfl
    have hds : paraDoSplit opts e = false := by unfold paraDoSplit; rw [hpb]; rfl
    show paraElemFinal opts e = e
    unfold paraElemFinal
    rw [hds]
    rfl

/-- With `breakPages` off the splitter returns the input sequence unchanged
(the fold over any starting state). -/
theorem splitFold_snd_noBreakPages (sm : Option (List (String × IDomStyle))) (opts : Options)
    (hbp : opts.breakPages = false) :
    ∀ (elements : List Element) (st : SplitState) (acc : List Element),
    (elements.foldl (fun (a : SplitState × List Element) e =>
       let r := splitStep sm opts a.1 e
       (r.1, a.2 ++ [r.2])) (st, acc)).2 = acc ++ elements := by
  intro elements
  induction elements with
  | nil => intro st acc; simp
  | cons e rest ih =>
    intro st acc
    have hstep : ∀ st' : SplitState, (splitStep sm opts st' e).2 = e :=
      fun st' => splitStep_snd_noBreakPages sm opts st' e hbp
    simp only [List.foldl_cons, hstep]
    rw [ih]
    simp

/-! ### C9: splitting mutates split paragraphs in place -/

/-- A one-run content paragraph. -/
def cPara1 : Element := paraOf none none (some [runOf [txtEl]])

/-- A four-run paragraph whose third run is a manual page break. -/
def cPara2 : Element :=
  paraOf none none (some [runOf [txtEl], runOf [txtEl], runOf [brkPage], runOf [txtEl]])

/-- C9 counterexample: with manual breaks honored, splitting `[cPara1, cPara2]`
returns an input sequence whose second paragraph has been truncated in place
to its two pre-break runs — the original sequence is not structurally
unchanged. -/
theorem c9_counterexample :
    (splitBySection none optsBreak [cPara1, cPara2] (some propsLast)).2 ≠
      [cPara1, cPara2] := by
  intro h
  have h2 := congrArg
    (fun l => (l.get? 1).map (fun e => (e.children.getD []).length)) h
  exact absurd h2 (by decide)

/-- C9 (amended): `splitBySection` mutates paragraphs at manual-break split
points in place; when no manual break is honored (`breakPages` off) the input
sequence is returned structurally unchanged, and on the concrete split input
the original paragraph is truncated to its pre-break children while the
fragment holds the rest. -/
theorem c9_split_mutation (sm : Option (List (String × IDomStyle))) (opts : Options)
    (elements : List Element) (lp : Option SectionProperties)
    (hbp : opts.breakPages = false) :
    (splitBySection sm opts elements lp).2 = elements ∧
    (splitBySection none optsBreak [cPara1, cPara2] (some propsLast)).2 =
      [cPara1, paraOf none none (some [runOf [txtEl], runOf [txtEl]])] := by
  constructor
  · unfold splitBySection
    simp only []
    exact splitFold_snd_noBreakPages sm opts hbp elements _ []
  · rfl

/-- Witness for C9 at a concrete input. -/
theorem c9_witness :
    (splitBySection none optsNoBreak [cPara1, cPara2] (some propsLast)).2 =
      [cPara1, cPara2] :=
  (c9_split_mutation none optsNoBreak [cPara1, cPara2] (some propsLast) rfl).1

/-! ### C3: pageBreakBefore at the very first element -/

/-- A style declaring `pageBreakBefore`. -/
def pbbStyle : IDomStyle :=
  { id := some "pbb", target := "p", basedOn := none, linked := none, isDefault := false,
    basedOnResolved := true, cssName := "", styles := [],
    paragraphProps := some { pageBreakBefore := true } }

/-- A resolved style map binding `pbb` to the page-break-before style. -/
def styleMapPbb : List (String × IDomStyle) := [("pbb", pbbStyle)]

/-- A paragraph styled with `pbb`. -/
def paraPbb : Element := paraOf (some "pbb") none (some [])

/-- C3 counterexample: a content sequence whose very first element is a
paragraph with a `pageBreakBefore` style splits into two sections whose
element lists are `[[], [paraPbb]]` — the first section of the result is a
leading empty section produced by the page-break-before style, which the
claim says never exists. -/
theorem c3_counterexample :
    ((splitBySection (some styleMapPbb) optsNoBreak [paraPbb] (some propsLast)).1).map
      Section.elements = [[], [paraPbb]] := rfl

/-- Each splitter step only appends to the committed sections. -/
theorem splitStep_committed_grows (sm : Option (List (String × IDomStyle)))
    (opts : Options) (st : SplitState) (e : Element) :
    st.committed <+: (splitStep sm opts st e).1.committed := by
  unfold splitStep
  split
  · exact List.prefix_rfl
  · exact List.prefix_append _ _

/-- The splitter fold only appends to the committed sections. -/
theorem splitFold_committed_grows (sm : Option (List (String × IDomStyle)))
    (opts : Options) :
    ∀ (elements : List Element) (st : SplitState) (acc : List Element),
    st.committed <+:
      ((elements.foldl (fun (a : SplitState × List Element) e =>
        let r := splitStep sm opts a.1 e
        (r.1, a.2 ++ [r.2])) (st, acc)).1).committed := by
  intro elements
  induction elements with
  | nil => intro st acc; exact List.prefix_rfl
  | cons e rest ih =>
    intro st acc
    simp only [List.foldl_cons]
    exact (splitStep_committed_grows sm opts st e).trans (ih _ _)

/-- Backward filling does not change any section's element list. -/
theorem backwardFill_map_elements (s : List Section) :
    (backwardFill s).map Section.elements = s.map Section.elements := by
  have aux : ∀ (l : List Section) (cur : Option SectionProperties),
      (backwardFillAux l cur).map Section.elements = l.map Section.elements := by
    intro l
    induction l with
    | nil => intro cur; rfl
    | cons x rest ih =>
      intro cur
      cases hx : x.sectProps <;> simp [backwardFillAux, hx, ih]
  unfold backwardFill
  rw [List.map_reverse, aux, ← List.map_reverse, List.reverse_reverse]

/-- The page-number pass does not change any section's element list. -/
theorem addNums_map_elements (s : List Section) :
    (addSectionInnerPageNums s).map Section.elements = s.map Section.elements := by
  have aux : ∀ (l : List Section) (lastId : Option String) (cnt : Nat),
      (addSectionInnerPageNumsAux l lastId cnt).map Section.elements =
        l.map Section.elements := by
    intro l
    induction l with
    | nil => intro lastId cnt; rfl
    | cons x rest ih =>
      intro lastId cnt
      cases hx : x.sectProps with
      | none => simp [addSectionInnerPageNumsAux, hx, ih]
      | some sp =>
        by_cases hid : sp.id ≠ lastId <;>
          simp [addSectionInnerPageNumsAux, hx, hid, ih]
  exact aux s (some "") 0

/-- The first splitter step on a page-break-before paragraph commits a leading
empty section. -/
theorem splitStep_pbb_first (sm : List (String × IDomStyle)) (opts : Options)
    (p : Element) (hp : p.etype = DomType.paragraph)
    (hpbb : pageBreakBeforeOf (some sm) p = true) :
    ∃ suf, (splitStep (some sm) opts
      { committed := [], current := { sectProps := none, elements := [] },
        sectPropsVar := none } p).1.committed =
      ({ sectProps := none, elements := [] } : Section) :: suf := by
  unfold splitStep
  rw [if_neg (by simp [hp])]
  simp only [hpbb, if_true, cloneOpt]
  exact ⟨_, rfl⟩

/-- C3 (amended): a paragraph whose resolved style declares `pageBreakBefore`
always closes the current section before it is appended, with no exception
for the very first element: when the content sequence starts with such a
paragraph the result has at least two sections and its first section is a
leading empty section. -/
theorem c3_pbb_first_creates_empty_section (sm : List (String × IDomStyle))
    (opts : Options) (p : Element) (rest : List Element)
    (lp : Option SectionProperties) (hp : p.etype = DomType.paragraph)
    (hpbb : pageBreakBeforeOf (some sm) p = true) :
    2 ≤ (splitBySection (some sm) opts (p :: rest) lp).1.length ∧
    (((splitBySection (some sm) opts (p :: rest) lp).1).map Section.elements).head? =
      some [] := by
  obtain ⟨suf0, hstep⟩ := splitStep_pbb_first sm opts p hp hpbb
  set st0 : SplitState :=
    { committed := [], current := { sectProps := none, elements := [] },
      sectPropsVar := none } with hst0
  have hpre := splitFold_committed_grows (some sm) opts rest
    (splitStep (some sm) opts st0 p).1
    ([] ++ [(splitStep (some sm) opts st0 p).2])
  obtain ⟨tail0, htail⟩ := hpre
  set stFin := ((rest.foldl (fun (a : SplitState × List Element) e =>
        let r := splitStep (some sm) opts a.1 e
        (r.1, a.2 ++ [r.2]))
      ((splitStep (some sm) opts st0 p).1,
        [] ++ [(splitStep (some sm) opts st0 p).2])).1) with hstFin
  have hcomm : stFin.committed =
      ({ sectProps := none, elements := [] } : Section) :: (suf0 ++ tail0) := by
    rw [← htail, hstep]
    simp
  have hsplit : (splitBySection (some sm) opts (p :: rest) lp).1 =
      addSectionInnerPageNums (backwardFill
        (stFin.committed ++ [{ stFin.current with sectProps := lp }])) := by
    rfl
  constructor
  · rw [hsplit]
    have hlen : (addSectionInnerPageNums (backwardFill
        (stFin.committed ++ [{ stFin.current with sectProps := lp }]))).length =
        (stFin.committed ++ [{ stFin.current with sectProps := lp }]).length := by
      have h1 := congrArg List.length (addNums_map_elements
        (backwardFill (stFin.committed ++ [{ stFin.current with sectProps := lp }])))
      have h2 := congrArg List.length (backwardFill_map_elements
        (stFin.committed ++ [{ stFin.current with sectProps := lp }]))
      simpa using h1.trans h2
    rw [hlen, hcomm]
    simp
    omega
  · rw [hsplit, addNums_map_elements, backwardFill_map_elements, hcomm]
    simp

/-- Witness for C3 (amended) at the concrete one-paragraph input. -/
theorem c3_witness :
    2 ≤ (splitBySection (some styleMapPbb) optsNoBreak [paraPbb] (some propsLast)).1.length ∧
    (((splitBySection (some styleMapPbb) optsNoBreak [paraPbb]
        (some propsLast)).1).map Section.elements).head? = some [] :=
  c3_pbb_first_creates_empty_section styleMapPbb optsNoBreak paraPbb []
    (some propsLast) rfl rfl

/-! ### Record lemmas (JavaScript-object semantics of StrMap) -/

theorem getKey_cons (p : String × String) (rest : StrMap) (k : String) :
    getKey (p :: rest) k = if p.1 = k then some p.2 else getKey rest k := by
  unfold getKey
  by_cases h : p.1 = k
  · rw [List.find?_cons_of_pos _ (by simpa using h), if_pos h]
    rfl
  · rw [List.find?_cons_of_neg _ (by simpa using h), if_neg h]

theorem hasKey_cons (p : String × String) (rest : StrMap) (k : String) :
    hasKey (p :: rest) k = (decide (p.1 = k) || hasKey rest k) := by
  unfold hasKey; rw [List.any_cons]

theorem hasKey_iff_getKey (m : StrMap) (k : String) :
    hasKey m k = true ↔ (getKey m k).isSome = true := by
  induction m with
  | nil => simp [hasKey, getKey]
  | cons p rest ih =>
    rw [hasKey_cons, getKey_cons]
    by_cases h : p.1 = k
    · simp [h]
    · simpa [h] using ih

theorem hasKey_false_getKey (m : StrMap) (k : String) (h : hasKey m k = false) :
    getKey m k = none := by
  cases hg : getKey m k with
  | none => rfl
  | some v =>
    have := (hasKey_iff_getKey m k).mpr (by simp [hg])
    rw [this] at h
    cases h

theorem getKey_append (m1 m2 : StrMap) (k : String) :
    getKey (m1 ++ m2) k =
      match getKey m1 k with
      | some v => some v
      | none => getKey m2 k := by
  unfold getKey
  rw [List.find?_append]
  cases h : m1.find? fun p => decide (p.1 = k) <;> simp [h]

theorem getKey_mapReplace (m : StrMap) (k v k' : String) :
    getKey (m.map (fun p => if p.1 = k then (k, v) else p)) k' =
      if k' = k then ((getKey m k).map fun _ => v) else getKey m k' := by
  induction m with
  | nil => by_cases h : k' = k <;> simp [getKey, h]
  | cons p rest ih =>
    simp only [List.map_cons]
    by_cases hpk : p.1 = k
    · rw [if_pos hpk]
      rw [getKey_cons (k, v) (rest.map fun p => if p.1 = k then (k, v) else p) k']
      by_cases hk' : k' = k
      · rw [if_pos hk', getKey_cons p rest k, if_pos hpk,
          if_pos (show ((k, v) : String × String).1 = k' from hk'.symm)]
        rfl
      · rw [if_neg hk', getKey_cons p rest k',
          if_neg (show ¬((k, v) : String × String).1 = k' from fun hc => hk' hc.symm),
          if_neg (show ¬(p.1 = k') from fun hc => hk' (by rw [← hc, hpk]))]
        rw [ih, if_neg hk']
    · rw [if_neg hpk]
      rw [getKey_cons p (rest.map fun p => if p.1 = k then (k, v) else p) k']
      by_cases hk' : k' = k
      · rw [if_pos hk', getKey_cons p rest k, if_neg hpk,
          if_neg (show ¬(p.1 = k') from fun hc => hpk (by rw [hc, hk']))]
        rw [ih, if_pos hk']
      · rw [if_neg hk', getKey_cons p rest k']
        by_cases hph : p.1 = k'
        · rw [if_pos hph, if_pos hph]
        · rw [if_neg hph, if_neg hph, ih, if_neg hk']

theorem getKey_setKey (m : StrMap) (k v k' : String) :
    getKey (setKey m k v) k' = if k' = k then some v else getKey m k' := by
  unfold setKey
  by_cases hk : hasKey m k
  · rw [if_pos hk, getKey_mapReplace]
    by_cases h : k' = k
    · rw [if_pos h, if_pos h]
      obtain ⟨v0, hv0⟩ := Option.isSome_iff_exists.mp ((hasKey_iff_getKey m k).mp hk)
      rw [hv0]
      rfl
    · rw [if_neg h, if_neg h]
  · rw [if_neg hk, getKey_append]
    by_cases h : k' = k
    · subst h
      rw [hasKey_false_getKey m k' (by simpa using hk)]
      simp [getKey_cons]
    · cases hg : getKey m k' with
      | some w => simp [hg, h]
      | none =>
        simp only [hg]
        rw [if_neg h, getKey_cons,
          if_neg (show ¬((k, v) : String × String).1 = k' from fun hc => h hc.symm)]
        rfl

theorem hasKey_setKey (m : StrMap) (k v k' : String) :
    hasKey (setKey m k v) k' = (decide (k' = k) || hasKey m k') := by
  have hiff := hasKey_iff_getKey (setKey m k v) k'
  rw [getKey_setKey] at hiff
  by_cases h : k' = k
  · rw [if_pos h] at hiff
    have h1 : hasKey (setKey m k v) k' = true := hiff.mpr rfl
    rw [h1]
    simp [h]
  · rw [if_neg h] at hiff
    cases hm : hasKey m k' with
    | true =>
      have h1 : hasKey (setKey m k v) k' = true :=
        hiff.mpr ((hasKey_iff_getKey m k').mp hm)
      rw [h1]
      simp [hm]
    | false =>
      have hnone : getKey m k' = none := hasKey_false_getKey m k' hm
      rw [hnone] at hiff
      simp only [Option.isSome_none, Bool.false_eq_true, iff_false] at hiff
      cases hc : hasKey (setKey m k v) k' with
      | true => exact absurd hc hiff
      | false => simp [h]

/-! ### copyStyleProperties and copyStyle characterization -/

/-- JavaScript-style first-defined choice on optional values. -/
def jsOr (a b : Option String) : Option String :=
  match a with
  | some v => some v
  | none => b

theorem jsOr_none_right (a : Option String) : jsOr a none = a := by
  cases a <;> rfl

theorem jsOr_some_left (v : String) (b : Option String) : jsOr (some v) b = some v := rfl

theorem mem_keysOf_iff_hasKey (m : StrMap) (k : String) :
    k ∈ keysOf m ↔ hasKey m k = true := by
  unfold keysOf hasKey
  rw [List.any_eq_true]
  simp only [List.mem_map, decide_eq_true_eq]

/-- The loop body of `copyStyleProperties`. -/
def cspStep (inp : StrMap) (ov : Bool) (out : StrMap) (k : String) : StrMap :=
  if hasKey inp k && (ov || !hasKey out k) then setKey out k (getKeyD inp k) else out

theorem copyStyleProperties_eq_foldl (inp out0 : StrMap) (ov : Bool) :
    copyStyleProperties (some inp) (some out0) none ov =
      some ((keysOf inp).foldl (cspStep inp ov) out0) := rfl

theorem getKey_cspStep (inp : StrMap) (ov : Bool) (out : StrMap) (k k' : String) :
    getKey (cspStep inp ov out k) k' =
      if k' = k ∧ hasKey inp k = true ∧ (ov = true ∨ hasKey out k = false) then
        getKey inp k
      else getKey out k' := by
  unfold cspStep
  by_cases hc : hasKey inp k && (ov || !hasKey out k)
  · rw [if_pos hc, getKey_setKey]
    simp only [Bool.and_eq_true, Bool.or_eq_true, Bool.not_eq_true'] at hc
    by_cases hk' : k' = k
    · rw [if_pos hk', if_pos ⟨hk', hc.1, hc.2⟩]
      obtain ⟨v, hv⟩ := Option.isSome_iff_exists.mp ((hasKey_iff_getKey inp k).mp hc.1)
      rw [hv]
      unfold getKeyD
      rw [hv]
      rfl
    · rw [if_neg hk', if_neg (fun h => hk' h.1)]
  · rw [if_neg hc]
    simp only [Bool.and_eq_true, Bool.or_eq_true, Bool.not_eq_true', not_and_or] at hc
    rcases hc with h1 | h1
    · rw [if_neg (fun h => h1 (by simp [h.2.1]))]
    · rw [if_neg (fun h => by
        rcases h.2.2 with h2 | h2
        · exact h1 (by simp [h2])
        · exact h1 (by simp [h2]))]

/-- The fold of `copyStyleProperties` with `overideExistingEntries = false`:
existing output values win, processed input keys fill the gaps. -/
theorem cspFold_false (inp : StrMap) :
    ∀ (ks : List String) (out : StrMap) (k' : String),
    getKey (ks.foldl (cspStep inp false) out) k' =
      jsOr (getKey out k') (if k' ∈ ks then getKey inp k' else none) := by
  intro ks
  induction ks with
  | nil =>
    intro out k'
    simp [jsOr_none_right]
  | cons k0 ks' ih =>
    intro out k'
    rw [List.foldl_cons, ih]
    by_cases hk' : k' = k0
    · subst hk'
      rw [if_pos (List.mem_cons_self k' ks'), getKey_cspStep]
      by_cases hinp : hasKey inp k' = true
      · obtain ⟨v, hv⟩ := Option.isSome_iff_exists.mp ((hasKey_iff_getKey inp k').mp hinp)
        by_cases hout : hasKey out k' = false
        · rw [if_pos ⟨rfl, hinp, Or.inr hout⟩, hv, hasKey_false_getKey out k' hout]
          rw [jsOr_some_left]
          rfl
        · have hout' : hasKey out k' = true := by simpa using hout
          obtain ⟨w, hw⟩ := Option.isSome_iff_exists.mp ((hasKey_iff_getKey out k').mp hout')
          rw [if_neg (fun h => by
            rcases h.2.2 with h2 | h2
            · exact Bool.false_ne_true h2
            · rw [hout'] at h2; cases h2), hw]
          rw [jsOr_some_left, jsOr_some_left]
      · rw [if_neg (fun h => hinp h.2.1), hasKey_false_getKey inp k' (by simpa using hinp)]
        by_cases hmem : k' ∈ ks'
        · rw [if_pos hmem]
        · rw [if_neg hmem]
    · have hstep : getKey (cspStep inp false out k0) k' = getKey out k' := by
        rw [getKey_cspStep, if_neg (fun h => hk' h.1)]
      rw [hstep]
      by_cases hmem : k' ∈ ks'
      · rw [if_pos hmem, if_pos (List.mem_cons_of_mem k0 hmem)]
      · rw [if_neg hmem, if_neg (fun h => by
          rcases List.mem_cons.mp h with h1 | h1
          · exact hk' h1
          · exact hmem h1)]

/-- The fold of `copyStyleProperties` with `overideExistingEntries = true`:
processed input keys override the output. -/
theorem cspFold_true (inp : StrMap) :
    ∀ (ks : List String) (out : StrMap) (k' : String),
    getKey (ks.foldl (cspStep inp true) out) k' =
      jsOr (if k' ∈ ks then getKey inp k' else none) (getKey out k') := by
  intro ks
  induction ks with
  | nil =>
    intro out k'
    simp [jsOr]
  | cons k0 ks' ih =>
    intro out k'
    rw [List.foldl_cons, ih]
    by_cases hk' : k' = k0
    · subst hk'
      rw [if_pos (List.mem_cons_self k' ks')]
      have hstep := getKey_cspStep inp true out k' k'
      by_cases hinp : hasKey inp k' = true
      · obtain ⟨v, hv⟩ := Option.isSome_iff_exists.mp ((hasKey_iff_getKey inp k').mp hinp)
        rw [if_pos ⟨rfl, hinp, Or.inl rfl⟩] at hstep
        rw [hstep, hv]
        by_cases hmem : k' ∈ ks'
        · rw [if_pos hmem, jsOr_some_left, jsOr_some_left]
        · rw [if_neg hmem, jsOr_some_left]
          rfl
      · rw [if_neg (fun h => hinp h.2.1)] at hstep
        rw [hstep, hasKey_false_getKey inp k' (by simpa using hinp)]
        by_cases hmem : k' ∈ ks'
        · rw [if_pos hmem]
        · rw [if_neg hmem]
    · have hstep : getKey (cspStep inp true out k0) k' = getKey out k' := by
        rw [getKey_cspStep, if_neg (fun h => hk' h.1)]
      rw [hstep]
      by_cases hmem : k' ∈ ks'
      · rw [if_pos hmem, if_pos (List.mem_cons_of_mem k0 hmem)]
      · rw [if_neg hmem, if_neg (fun h => by
          rcases List.mem_cons.mp h with h1 | h1
          · exact hk' h1
          · exact hmem h1)]

/-- Lookup through `copyStyleProperties` with `overideExistingEntries = false`:
output wins, input fills. -/
theorem copyStyleProperties_lookup_false (inp out0 : StrMap) (k' : String) :
    getKey ((copyStyleProperties (some inp) (some out0) none false).getD []) k' =
      jsOr (getKey out0 k') (getKey inp k') := by
  rw [copyStyleProperties_eq_foldl]
  show getKey ((keysOf inp).foldl (cspStep inp false) out0) k' = _
  rw [cspFold_false]
  by_cases hmem : k' ∈ keysOf inp
  · rw [if_pos hmem]
  · rw [if_neg hmem]
    rw [hasKey_false_getKey inp k' (by
      cases h : hasKey inp k'
      · rfl
      · exact absurd ((mem_keysOf_iff_hasKey inp k').mpr h) hmem)]

/-- Lookup through `copyStyleProperties` with `overideExistingEntries = true`:
input wins. -/
theorem copyStyleProperties_lookup_true (inp out0 : StrMap) (k' : String) :
    getKey ((copyStyleProperties (some inp) (some out0) none true).getD []) k' =
      jsOr (getKey inp k') (getKey out0 k') := by
  rw [copyStyleProperties_eq_foldl]
  show getKey ((keysOf inp).foldl (cspStep inp true) out0) k' = _
  rw [cspFold_true]
  by_cases hmem : k' ∈ keysOf inp
  · rw [if_pos hmem]
  · rw [if_neg hmem]
    rw [hasKey_false_getKey inp k' (by
      cases h : hasKey inp k'
      · rfl
      · exact absurd ((mem_keysOf_iff_hasKey inp k').mpr h) hmem)]

/-! ### copyStyle lookup characterization -/

/-- Lookup of a property in a block list: the first block of the given target
kind, then its value for the key. -/
def lookupBlocks (blocks : List SubStyle) (t k : String) : Option String :=
  match blocks.find? (fun ss => decide (ss.target = t)) with
  | none => none
  | some ss => getKey ss.values k

/-- Lookup of a property on a style, per target kind and key. -/
def lookupStyle (s : IDomStyle) (t k : String) : Option String := lookupBlocks s.styles t k

theorem lookupBlocks_cons (ss : SubStyle) (rest : List SubStyle) (t k : String) :
    lookupBlocks (ss :: rest) t k =
      if ss.target = t then getKey ss.values k else lookupBlocks rest t k := by
  unfold lookupBlocks
  by_cases h : ss.target = t
  · rw [List.find?_cons_of_pos _ (by simpa using h), if_pos h]
  · rw [List.find?_cons_of_neg _ (by simpa using h), if_neg h]

theorem lookupBlocks_append (b1 b2 : List SubStyle) (t k : String) :
    lookupBlocks (b1 ++ b2) t k =
      match b1.find? (fun ss => decide (ss.target = t)) with
      | some ss => getKey ss.values k
      | none => lookupBlocks b2 t k := by
  unfold lookupBlocks
  rw [List.find?_append]
  cases h : b1.find? (fun ss => decide (ss.target = t)) <;> simp [h]

theorem lookupBlocks_of_not_mem (blocks : List SubStyle) (t k : String)
    (h : t ∉ blocks.map (·.target)) : lookupBlocks blocks t k = none := by
  unfold lookupBlocks
  rw [List.find?_eq_none.mpr]
  intro ss hss
  simp only [decide_eq_true_eq]
  exact fun hc => h (List.mem_map.mpr ⟨ss, hss, hc⟩)

theorem find?_eq_none_of_not_mem_targets (blocks : List SubStyle) (t : String)
    (h : blocks.any (fun x => decide (x.target = t)) = false) :
    blocks.find? (fun x => decide (x.target = t)) = none := by
  rw [List.find?_eq_none]
  intro ss hss
  have := List.any_eq_false.mp h ss hss
  simpa using this

/-- The body of the `copyStyle` fold, named. -/
def copyBlocksStep (ov : Bool) (tgt : IDomStyle) (bss : SubStyle) : IDomStyle :=
  if tgt.styles.any (fun x => decide (x.target = bss.target)) then
    let mergeBlock := fun (s0 : SubStyle) =>
      { s0 with values :=
          (copyStyleProperties (some bss.values) (some s0.values) none ov).getD [] }
    { tgt with styles :=
        updateFirst (fun x => decide (x.target = bss.target)) mergeBlock tgt.styles }
  else
    { tgt with styles := tgt.styles ++ [bss] }

theorem copyStyle_eq_foldl (base tgt : IDomStyle) (ov : Bool) :
    copyStyle base tgt ov = base.styles.foldl (copyBlocksStep ov) tgt := rfl

theorem lookupBlocks_updateFirst_merge (ov : Bool) (bss : SubStyle) :
    ∀ (blocks : List SubStyle) (t k : String),
    blocks.any (fun x => decide (x.target = bss.target)) = true →
    lookupBlocks (updateFirst (fun x => decide (x.target = bss.target))
      (fun s0 => { s0 with values :=
        (copyStyleProperties (some bss.values) (some s0.values) none ov).getD [] })
      blocks) t k =
      (if bss.target = t then
        (if ov then jsOr (getKey bss.values k) (lookupBlocks blocks t k)
         else jsOr (lookupBlocks blocks t k) (getKey bss.values k))
      else lookupBlocks blocks t k) := by
  intro blocks
  induction blocks with
  | nil => intro t k h; simp at h
  | cons s0 rest ih =>
    intro t k hany
    unfold updateFirst
    by_cases h0 : s0.target = bss.target
    · rw [if_pos (by simpa using h0)]
      rw [lookupBlocks_cons, lookupBlocks_cons]
      by_cases ht : s0.target = t
      · rw [if_pos (show ({ s0 with values :=
            (copyStyleProperties (some bss.values) (some s0.values) none ov).getD [] }
            : SubStyle).target = t from ht), if_pos ht]
        rw [if_pos (show bss.target = t from h0 ▸ ht)]
        cases ov
        · rw [if_neg (by simp), copyStyleProperties_lookup_false]
        · rw [if_pos rfl, copyStyleProperties_lookup_true]
      · rw [if_neg (show ¬({ s0 with values :=
            (copyStyleProperties (some bss.values) (some s0.values) none ov).getD [] }
            : SubStyle).target = t from ht), if_neg ht]
        rw [if_neg (show ¬bss.target = t from fun hc => ht (h0.trans hc))]
    · rw [if_neg (by simpa using h0)]
      have hany' : rest.any (fun x => decide (x.target = bss.target)) = true := by
        rcases (List.any_eq_true.mp hany) with ⟨x, hx, hpx⟩
        rcases List.mem_cons.mp hx with h1 | h1
        · exact absurd (by simpa using (h1 ▸ hpx : decide (s0.target = bss.target) = true))
            h0
        · exact List.any_eq_true.mpr ⟨x, h1, hpx⟩
      rw [lookupBlocks_cons, lookupBlocks_cons]
      by_cases ht : s0.target = t
      · rw [if_pos ht, if_pos ht]
        rw [if_neg (show ¬bss.target = t from fun hc => h0 (ht.trans hc.symm ▸ rfl))]
      · rw [if_neg ht, if_neg ht, ih t k hany']

/-- Lookup through one `copyStyle` block step: for the block's own target kind
the merge formula applies, any other target kind is untouched. -/
theorem lookupStyle_copyBlocksStep (ov : Bool) (tgt : IDomStyle) (bss : SubStyle)
    (t k : String) :
    lookupStyle (copyBlocksStep ov tgt bss) t k =
      (if bss.target = t then
        (if ov then jsOr (getKey bss.values k) (lookupStyle tgt t k)
         else jsOr (lookupStyle tgt t k) (getKey bss.values k))
      else lookupStyle tgt t k) := by
  unfold copyBlocksStep lookupStyle
  by_cases hany : tgt.styles.any (fun x => decide (x.target = bss.target)) = true
  · rw [if_pos hany]
    exact lookupBlocks_updateFirst_merge ov bss tgt.styles t k hany
  · rw [if_neg hany]
    show lookupBlocks (tgt.styles ++ [bss]) t k = _
    have hfindB : tgt.styles.find? (fun ss => decide (ss.target = bss.target)) = none :=
      find?_eq_none_of_not_mem_targets tgt.styles bss.target (by simpa using hany)
    rw [lookupBlocks_append]
    by_cases hbt : bss.target = t
    · have hfind : tgt.styles.find? (fun ss => decide (ss.target = t)) = none :=
        hbt ▸ hfindB
      have hlook : lookupBlocks tgt.styles t k = none := by
        unfold lookupBlocks
        rw [hfind]
      simp only [hfind]
      rw [lookupBlocks_cons, if_pos hbt, if_pos hbt, hlook]
      cases ov
      · rw [if_neg (by simp)]
        rfl
      · rw [if_pos rfl, jsOr_none_right]
    · rw [if_neg hbt]
      cases hf : tgt.styles.find? (fun ss => decide (ss.target = t)) with
      | some ss =>
        simp only [hf]
        unfold lookupBlocks
        rw [hf]
      | none =>
        simp only [hf]
        rw [lookupBlocks_cons, if_neg hbt]
        unfold lookupBlocks
        rw [hf]
        rfl

theorem contains_iff_mem (xs : List String) (x : String) :
    xs.contains x = true ↔ x ∈ xs := List.elem_iff

theorem nodupB_cons_iff (x : String) (xs : List String) :
    nodupB (x :: xs) = true ↔ x ∉ xs ∧ nodupB xs = true := by
  have he : nodupB (x :: xs) = (!xs.contains x && nodupB xs) := rfl
  rw [he, Bool.and_eq_true, Bool.not_eq_true']
  constructor
  · rintro ⟨h1, h2⟩
    refine ⟨fun hm => ?_, h2⟩
    rw [(contains_iff_mem xs x).mpr hm] at h1
    cases h1
  · rintro ⟨h1, h2⟩
    refine ⟨?_, h2⟩
    cases hc : xs.contains x
    · rfl
    · exact absurd ((contains_iff_mem xs x).mp hc) h1

theorem any_target_false_iff (blocks : List SubStyle) (t : String) :
    (blocks.any (fun x => decide (x.target = t)) = false) ↔
      t ∉ blocks.map (·.target) := by
  constructor
  · intro h hm
    obtain ⟨ss, hss, hts⟩ := List.mem_map.mp hm
    have := List.any_eq_false.mp h ss hss
    simp [hts] at this
  · intro h
    rw [List.any_eq_false]
    intro ss hss
    simp only [decide_eq_true_eq]
    exact fun hc => h (List.mem_map.mpr ⟨ss, hss, hc⟩)

/-- `lookupStyle` through `copyStyle` with `overideExistingEntries = false`:
the target's values win, the base fills the gaps. -/
theorem lookupStyle_foldSteps_false :
    ∀ (bs : List SubStyle) (tgt : IDomStyle) (t k : String),
    nodupB (bs.map (·.target)) = true →
    lookupStyle (bs.foldl (copyBlocksStep false) tgt) t k =
      jsOr (lookupStyle tgt t k) (lookupBlocks bs t k) := by
  intro bs
  induction bs with
  | nil =>
    intro tgt t k _
    show lookupStyle tgt t k = jsOr (lookupStyle tgt t k) none
    rw [jsOr_none_right]
  | cons b rest ih =>
    intro tgt t k hnd
    obtain ⟨hbn, hnd'⟩ := (nodupB_cons_iff b.target (rest.map (·.target))).mp
      (by simpa using hnd)
    rw [List.foldl_cons, ih (copyBlocksStep false tgt b) t k hnd',
      lookupStyle_copyBlocksStep, lookupBlocks_cons]
    by_cases hbt : b.target = t
    · rw [if_pos hbt, if_pos hbt, if_neg (Bool.false_ne_true),
        lookupBlocks_of_not_mem rest t k (hbt ▸ hbn), jsOr_none_right]
    · rw [if_neg hbt, if_neg hbt]

/-- `lookupStyle` through `copyStyle` with `overideExistingEntries = true`:
the base's values win. -/
theorem lookupStyle_foldSteps_true :
    ∀ (bs : List SubStyle) (tgt : IDomStyle) (t k : String),
    nodupB (bs.map (·.target)) = true →
    lookupStyle (bs.foldl (copyBlocksStep true) tgt) t k =
      jsOr (lookupBlocks bs t k) (lookupStyle tgt t k) := by
  intro bs
  induction bs with
  | nil =>
    intro tgt t k _
    show lookupStyle tgt t k = jsOr none (lookupStyle tgt t k)
    rfl
  | cons b rest ih =>
    intro tgt t k hnd
    obtain ⟨hbn, hnd'⟩ := (nodupB_cons_iff b.target (rest.map (·.target))).mp
      (by simpa using hnd)
    rw [List.foldl_cons, ih (copyBlocksStep true tgt b) t k hnd',
      lookupStyle_copyBlocksStep, lookupBlocks_cons]
    by_cases hbt : b.target = t
    · rw [if_pos hbt, if_pos hbt, if_pos rfl,
        lookupBlocks_of_not_mem rest t k (hbt ▸ hbn)]
      cases hb : getKey b.values k
      · rfl
      · rfl
    · rw [if_neg hbt, if_neg hbt]

theorem lookupStyle_copyStyle_false (base tgt : IDomStyle) (t k : String)
    (h : nodupB (base.styles.map (·.target)) = true) :
    lookupStyle (copyStyle base tgt false) t k =
      jsOr (lookupStyle tgt t k) (lookupStyle base t k) := by
  rw [copyStyle_eq_foldl]
  exact lookupStyle_foldSteps_false base.styles tgt t k h

theorem lookupStyle_copyStyle_true (base tgt : IDomStyle) (t k : String)
    (h : nodupB (base.styles.map (·.target)) = true) :
    lookupStyle (copyStyle base tgt true) t k =
      jsOr (lookupStyle base t k) (lookupStyle tgt t k) := by
  rw [copyStyle_eq_foldl]
  exact lookupStyle_foldSteps_true base.styles tgt t k h

/-! ### Target-list preservation through copyStyle -/

theorem map_target_updateFirst (p : SubStyle → Bool) (f : SubStyle → SubStyle)
    (hf : ∀ ss, (f ss).target = ss.target) :
    ∀ blocks : List SubStyle,
    (updateFirst p f blocks).map (·.target) = blocks.map (·.target) := by
  intro blocks
  induction blocks with
  | nil => rfl
  | cons s0 rest ih =>
    unfold updateFirst
    by_cases h : p s0
    · rw [if_pos h]
      simp [hf s0]
    · rw [if_neg h]
      simp [ih]

theorem targets_copyBlocksStep (ov : Bool) (tgt : IDomStyle) (bss : SubStyle) :
    ((copyBlocksStep ov tgt bss).styles.map (·.target)) =
      (if tgt.styles.any (fun x => decide (x.target = bss.target)) then
        tgt.styles.map (·.target)
      else tgt.styles.map (·.target) ++ [bss.target]) := by
  unfold copyBlocksStep
  by_cases h : tgt.styles.any (fun x => decide (x.target = bss.target)) = true
  · rw [if_pos h, if_pos h]
    exact map_target_updateFirst (fun x => decide (x.target = bss.target))
      (fun s0 => { s0 with values :=
        (copyStyleProperties (some bss.values) (some s0.values) none ov).getD [] })
      (fun ss => rfl) tgt.styles
  · rw [if_neg h, if_neg h]
    simp

theorem nodupB_append_singleton (l : List String) (x : String)
    (hx : x ∉ l) (h : nodupB l = true) : nodupB (l ++ [x]) = true := by
  induction l with
  | nil => rfl
  | cons y ys ih =>
    obtain ⟨h1, h2⟩ := (nodupB_cons_iff y ys).mp h
    have hx' : x ∉ ys := fun hm => hx (List.mem_cons_of_mem y hm)
    have hyx : y ≠ x := fun he => hx (he ▸ List.mem_cons_self y ys)
    rw [List.cons_append]
    refine (nodupB_cons_iff y (ys ++ [x])).mpr ⟨?_, ih hx' h2⟩
    intro hm
    rcases List.mem_append.mp hm with hm | hm
    · exact h1 hm
    · simp at hm
      exact hyx hm

theorem nodup_targets_foldSteps (ov : Bool) :
    ∀ (bs : List SubStyle) (tgt : IDomStyle),
    nodupB (tgt.styles.map (·.target)) = true →
    nodupB (((bs.foldl (copyBlocksStep ov) tgt).styles).map (·.target)) = true := by
  intro bs
  induction bs with
  | nil => intro tgt h; exact h
  | cons b rest ih =>
    intro tgt h
    rw [List.foldl_cons]
    apply ih
    rw [targets_copyBlocksStep]
    by_cases hany : tgt.styles.any (fun x => decide (x.target = b.target)) = true
    · rw [if_pos hany]
      exact h
    · rw [if_neg hany]
      exact nodupB_append_singleton _ _
        ((any_target_false_iff tgt.styles b.target).mp (by simpa using hany)) h

theorem nodup_targets_copyStyle (base tgt : IDomStyle) (ov : Bool)
    (h : nodupB (tgt.styles.map (·.target)) = true) :
    nodupB ((copyStyle base tgt ov).styles.map (·.target)) = true := by
  rw [copyStyle_eq_foldl]
  exact nodup_targets_foldSteps ov base.styles tgt h

/-! ### C2: the default-style application to null-id styles -/

theorem replaceAsciiThemeSub_noAscii (minor major : Option String) (b : Bool) (ss : SubStyle)
    (h : hasKey ss.values "asciiTheme" = false) (hminor : strTruthy minor = false) :
    replaceAsciiThemeSub minor major b ss = ss := by
  unfold replaceAsciiThemeSub
  rw [hasKey_false_getKey _ _ h]
  simp only [show strTruthy none = false from rfl, Bool.not_false, if_true, hminor,
    Bool.and_false, Bool.false_eq_true, if_false]

theorem map_replaceSub_id (minor major : Option String) (b : Bool)
    (hminor : strTruthy minor = false) :
    ∀ l : List SubStyle, (∀ ss ∈ l, hasKey ss.values "asciiTheme" = false) →
    l.map (replaceAsciiThemeSub minor major b) = l := by
  intro l
  induction l with
  | nil => intro _; rfl
  | cons ss rest ih =>
    intro h
    rw [List.map_cons,
      replaceAsciiThemeSub_noAscii minor major b ss (h ss (List.mem_cons_self ss rest)) hminor,
      ih (fun x hx => h x (List.mem_cons_of_mem ss hx))]

theorem replaceAsciiTheme_emptyFonts (style : IDomStyle) (b : Bool)
    (h : ∀ ss ∈ style.styles, hasKey ss.values "asciiTheme" = false) :
    replaceAsciiTheme (some themeEmptyFonts) style b = .ok style := by
  show Except.ok { style with
    styles := style.styles.map (replaceAsciiThemeSub (some "") none b) } = .ok style
  rw [map_replaceSub_id (some "") none b (by decide) style.styles h]

theorem processStylesPhase2_go_skip (fuel : Nat) :
    ∀ (idxs : List Nat) (arr : List IDomStyle),
    (∀ s ∈ arr, s.basedOn = none ∨ s.basedOnResolved = true) →
    processStylesPhase2.go fuel arr idxs = .ok arr := by
  intro idxs
  induction idxs with
  | nil => intro arr h; rfl
  | cons i rest ih =>
    intro arr h
    unfold processStylesPhase2.go
    cases hg : arr.get? i with
    | none => exact ih arr h
    | some s =>
      have hs := h s (List.get?_mem hg)
      have hcond : (s.basedOn.isSome && !s.basedOnResolved) = false := by
        rcases hs with h1 | h1 <;> simp [h1]
      simp only [hcond, Bool.false_eq_true, if_false]
      exact ih arr h

theorem processStylesPhase2_skip (fuel : Nat) (arr : List IDomStyle)
    (h : ∀ s ∈ arr, s.basedOn = none ∨ s.basedOnResolved = true) :
    processStylesPhase2 fuel arr = .ok arr :=
  processStylesPhase2_go_skip fuel (List.range arr.length) arr h

/-- C2 (amended): `processStyles` applies the aggregated default style to
every null-id style destructively (`copyStyle` is called with
`overideExistingEntries = true`): for every target kind and key, the resulting
anonymous style resolves to the default's value whenever the default declares
that key, and keeps its own value only for keys the default does not declare. -/
theorem c2_default_application_overrides
    (fuel : Nat) (rootClass : String) (D A : IDomStyle)
    (hDid : D.id.isSome = true) (hDdef : D.isDefault = true) (hDbo : D.basedOn = none)
    (hAid : A.id = none) (hAdef : A.isDefault = false) (hAbo : A.basedOn = none)
    (hDat : ∀ ss ∈ D.styles, hasKey ss.values "asciiTheme" = false)
    (hAat : ∀ ss ∈ A.styles, hasKey ss.values "asciiTheme" = false)
    (hDnd : nodupB (D.styles.map (·.target)) = true) :
    ∃ D' A', processStylesFuel fuel (some themeEmptyFonts) rootClass [D, A] = .ok [D', A'] ∧
      ∀ t k, lookupStyle A' t k = jsOr (lookupStyle D t k) (lookupStyle A t k) := by
  set D1 : IDomStyle := { D with basedOnResolved := true } with hD1
  have hD1at : ∀ ss ∈ D1.styles, hasKey ss.values "asciiTheme" = false := hDat
  have h1 : processStylesPhase1 (some themeEmptyFonts) [D, A] = .ok [D1, A] := by
    simp only [processStylesPhase1, hDid, if_true,
      replaceAsciiTheme_emptyFonts D false hDat, hAid, Option.isSome_none,
      Bool.false_eq_true, if_false, hDbo, Option.isNone_none, hD1]
  have h2 : processStylesPhase2 fuel [D1, A] = .ok [D1, A] := by
    apply processStylesPhase2_skip
    intro s hs
    rcases List.mem_cons.mp hs with rfl | hs
    · right; rfl
    · simp at hs
      subst hs
      left; exact hAbo
  set D3 : IDomStyle :=
    { D1 with cssName := processClassName rootClass (escapeClassName D1.id) } with hD3
  set A3 : IDomStyle :=
    { A with cssName := processClassName rootClass (escapeClassName A.id) } with hA3
  have h3 : processStylesPhase3 (some themeEmptyFonts) rootClass [D1, A] = .ok [D3, A3] := by
    simp only [processStylesPhase3, replaceAsciiTheme_emptyFonts D1 true hD1at,
      replaceAsciiTheme_emptyFonts A true hAat, hD3, hA3]
  set overrideStyle : IDomStyle :=
    ([D3, A3].filter (·.isDefault)).foldl (fun acc d => copyStyle d acc false)
      { (([D3, A3].filter (·.isDefault)).headD D3) with styles := [] } with hov
  have hfilter : [D3, A3].filter (·.isDefault) = [D3] := by
    simp only [List.filter]
    simp only [show D3.isDefault = D.isDefault from rfl, hDdef,
      show A3.isDefault = A.isDefault from rfl, hAdef]
  set A4 : IDomStyle := copyStyle (copyStyle D3 { D3 with styles := [] } false) A3 true
    with hA4
  have h4 : processStylesDefaults [D3, A3] = .ok [D3, A4] := by
    unfold processStylesDefaults
    rw [hfilter]
    simp only [List.foldl_cons, List.foldl_nil, List.map_cons, List.map_nil]
    have hD3id : ¬D3.id = none := by
      intro hc
      rw [show D3.id = D.id from rfl] at hc
      rw [hc] at hDid
      cases hDid
    have hA3id : A3.id = none := hAid
    rw [if_neg hD3id, if_pos hA3id]
  refine ⟨D3, A4, ?_, ?_⟩
  · unfold processStylesFuel
    rw [h1]
    simp only []
    rw [h2]
    simp only []
    rw [h3]
    simp only []
    rw [h4]
  · intro t k
    have hndD3 : nodupB (D3.styles.map (·.target)) = true := hDnd
    have hovLookup : ∀ t' k',
        lookupStyle (copyStyle D3 { D3 with styles := [] } false) t' k' =
          lookupStyle D t' k' := by
      intro t' k'
      rw [lookupStyle_copyStyle_false D3 { D3 with styles := [] } t' k' hndD3]
      show jsOr none (lookupStyle D3 t' k') = lookupStyle D t' k'
      rfl
    have hndOv : nodupB ((copyStyle D3 { D3 with styles := [] } false).styles.map
        (·.target)) = true :=
      nodup_targets_copyStyle D3 { D3 with styles := [] } false rfl
    rw [hA4, lookupStyle_copyStyle_true _ A3 t k hndOv, hovLookup]
    rfl

/-- A concrete default style declaring `color: red` for paragraphs. -/
def styleDdef : IDomStyle :=
  { id := some "Normal", target := "p", basedOn := none, linked := none, isDefault := true,
    basedOnResolved := false, cssName := "",
    styles := [{ target := "p", values := [("color", "red")] }], paragraphProps := none }

/-- A concrete anonymous (null-id) style explicitly declaring `color: blue`. -/
def styleAnon : IDomStyle :=
  { id := none, target := "p", basedOn := none, linked := none, isDefault := false,
    basedOnResolved := false, cssName := "",
    styles := [{ target := "p", values := [("color", "blue")] }], paragraphProps := none }

/-- C2 counterexample: the anonymous style explicitly declares
`color: blue`, but after `processStyles` the default's `color: red` has
overwritten it — the default application changes a property key already
explicitly set, which the claim says never happens. -/
theorem c2_counterexample :
    lookupStyle styleAnon "p" "color" = some "blue" ∧
    (match processStylesFuel 1 (some themeEmptyFonts) "docx" [styleDdef, styleAnon] with
      | .ok arr => (arr.get? 1).bind (fun s => lookupStyle s "p" "color")
      | _ => none) = some "red" := by
  constructor
  · rfl
  · rfl

/-- Witness for C2 (amended) at the concrete default/anonymous pair. -/
theorem c2_witness :
    ∃ D' A', processStylesFuel 1 (some themeEmptyFonts) "docx" [styleDdef, styleAnon] =
        .ok [D', A'] ∧
      ∀ t k, lookupStyle A' t k = jsOr (lookupStyle styleDdef t k) (lookupStyle styleAnon t k) :=
  c2_default_application_overrides 1 "docx" styleDdef styleAnon rfl rfl rfl rfl rfl rfl
    (by intro ss hss; rw [List.mem_singleton.mp hss]; rfl)
    (by intro ss hss; rw [List.mem_singleton.mp hss]; rfl)
    rfl

/-! ### C10: processStyles without a theme part -/

/-- The styles part of the package. -/
structure StylesPart where
  styles : List IDomStyle

/-- The document slice `render` consults for style processing. -/
structure WordDocMin where
  themePart : Option ThemePart
  stylesPart : Option StylesPart

/-- The style-processing slice of `render` (lines 73-83): the theme-variable
emission is guarded on `themePart`, but `processStyles` runs whenever a styles
part exists, with no theme guard. -/
def renderStyleProcessing (fuel : Nat) (rootClass : String) (doc : WordDocMin) :
    JsOutcome (Option (List IDomStyle)) :=
  match doc.stylesPart with
  | none => .ok none
  | some sp =>
    match processStylesFuel fuel doc.themePart rootClass sp.styles with
    | .ok arr => .ok (some arr)
    | .err e => .err e
    | .hang => .hang

theorem phase1_noTheme_err :
    ∀ styles : List IDomStyle, (∃ s ∈ styles, s.id.isSome = true) →
    processStylesPhase1 none styles = .error "TypeError" := by
  intro styles
  induction styles with
  | nil =>
    rintro ⟨s, hs, _⟩
    simp at hs
  | cons s rest ih =>
    rintro ⟨x, hx, hxid⟩
    unfold processStylesPhase1
    by_cases hid : s.id.isSome = true
    · rw [if_pos hid]
      rfl
    · rw [if_neg hid]
      have hex : ∃ y ∈ rest, y.id.isSome = true := by
        rcases List.mem_cons.mp hx with h1 | h1
        · exact absurd (h1 ▸ hxid) hid
        · exact ⟨x, h1, hxid⟩
      rw [ih hex]

/-- C10: `replaceAsciiTheme` dereferences the theme part unconditionally, so
on a document whose theme part is absent but whose styles part is present
(with at least one named style), the style-processing phase of `render`
throws instead of degrading gracefully. -/
theorem c10_missing_theme_throws (fuel : Nat) (rootClass : String) (doc : WordDocMin)
    (sp : StylesPart) (hsp : doc.stylesPart = some sp) (hth : doc.themePart = none)
    (hid : ∃ s ∈ sp.styles, s.id.isSome = true) :
    (∀ (style : IDomStyle) (addDefault : Bool),
        replaceAsciiTheme none style addDefault = .error "TypeError") ∧
    processStylesFuel fuel none rootClass sp.styles = .err "TypeError" ∧
    renderStyleProcessing fuel rootClass doc = .err "TypeError" := by
  have hproc : processStylesFuel fuel none rootClass sp.styles = .err "TypeError" := by
    unfold processStylesFuel
    rw [phase1_noTheme_err sp.styles hid]
  refine ⟨fun style b => rfl, hproc, ?_⟩
  unfold renderStyleProcessing
  rw [hsp]
  simp only []
  rw [hth, hproc]

/-- A concrete document with a styles part but no theme part. -/
def docNoTheme : WordDocMin := { themePart := none, stylesPart := some { styles := [pbbStyle] } }

/-- Witness for C10 at the concrete theme-less document. -/
theorem c10_witness :
    renderStyleProcessing 1 "docx" docNoTheme = .err "TypeError" :=
  (c10_missing_theme_throws 1 "docx" docNoTheme { styles := [pbbStyle] } rfl rfl
    ⟨pbbStyle, List.mem_singleton.mpr rfl, rfl⟩).2.2

/-! ### C6: three paragraphs, the second carrying section properties -/

/-- C6: splitting `[p1, p2, p3]` where only `p2` embeds section properties
`S1` (no page breaks, no page-break-before styles) yields exactly two
sections: `[p1, p2]` governed by `S1` and `[p3]` governed by the document's
trailing properties, each with `pageWithinSection = 1` since the identities
differ. -/
theorem c6_section_properties_split (sm : Option (List (String × IDomStyle)))
    (opts : Options) (p1 p2 p3 : Element) (S1 LP : SectionProperties)
    (hp1 : p1.etype = DomType.paragraph) (hp2 : p2.etype = DomType.paragraph)
    (hp3 : p3.etype = DomType.paragraph)
    (hb1 : pageBreakBeforeOf sm p1 = false) (hb2 : pageBreakBeforeOf sm p2 = false)
    (hb3 : pageBreakBeforeOf sm p3 = false)
    (hf1 : findBreak opts p1 = (-1, -1)) (hf2 : findBreak opts p2 = (-1, -1))
    (hf3 : findBreak opts p3 = (-1, -1))
    (hs1 : p1.sectionProps = none) (hs2 : p2.sectionProps = some S1)
    (hs3 : p3.sectionProps = none)
    (hid : S1.id ≠ LP.id) :
    (splitBySection sm opts [p1, p2, p3] (some LP)).1 =
      [{ sectProps := some { S1 with pageWithinSection := 1 }, elements := [p1, p2] },
       { sectProps := some { LP with pageWithinSection := 1 }, elements := [p3] }] := by
  have h1 : (splitStep sm opts
      { committed := [], current := { sectProps := none, elements := [] },
        sectPropsVar := none } p1).1 =
      ({ committed := [], current := { sectProps := none, elements := [p1] },
         sectPropsVar := none } : SplitState) := by
    rw [splitStep_plain sm opts _ p1 hp1 hb1 hs1 hf1]
    simp
  have h2 : (splitStep sm opts
      ({ committed := [], current := { sectProps := none, elements := [p1] },
         sectPropsVar := none } : SplitState) p2).1 =
      ({ committed := [{ sectProps := some S1, elements := [p1, p2] }],
         current := { sectProps := none, elements := [] },
         sectPropsVar := some S1 } : SplitState) := by
    rw [splitStep_sectProps sm opts _ p2 S1 hp2 hb2 hs2 hf2]
    simp
  have h3 : (splitStep sm opts
      ({ committed := [{ sectProps := some S1, elements := [p1, p2] }],
         current := { sectProps := none, elements := [] },
         sectPropsVar := some S1 } : SplitState) p3).1 =
      ({ committed := [{ sectProps := some S1, elements := [p1, p2] }],
         current := { sectProps := none, elements := [p3] },
         sectPropsVar := none } : SplitState) := by
    rw [splitStep_plain sm opts _ p3 hp3 hb3 hs3 hf3]
    simp
  have hfold : (splitBySection sm opts [p1, p2, p3] (some LP)).1 =
      addSectionInnerPageNums (backwardFill
        ([{ sectProps := some S1, elements := [p1, p2] }] ++
         [{ sectProps := some LP, elements := [p3] }])) := by
    unfold splitBySection
    simp only [List.foldl_cons, List.foldl_nil]
    rw [h1, h2, h3]
  rw [hfold]
  have hbf : backwardFill
      ([({ sectProps := some S1, elements := [p1, p2] } : Section)] ++
       [({ sectProps := some LP, elements := [p3] } : Section)]) =
      [({ sectProps := some S1, elements := [p1, p2] } : Section),
       ({ sectProps := some LP, elements := [p3] } : Section)] := rfl
  rw [hbf]
  have e1 : addSectionInnerPageNums
      [({ sectProps := some S1, elements := [p1, p2] } : Section),
       ({ sectProps := some LP, elements := [p3] } : Section)] =
      (if S1.id ≠ some "" then
        { sectProps := some { S1 with pageWithinSection := 1 }, elements := [p1, p2] } ::
          addSectionInnerPageNumsAux
            [{ sectProps := some LP, elements := [p3] }] S1.id 1
      else
        { sectProps := some { S1 with pageWithinSection := 0 + 1 }, elements := [p1, p2] } ::
          addSectionInnerPageNumsAux
            [{ sectProps := some LP, elements := [p3] }] (some "") (0 + 1)) := rfl
  have e2 : ∀ (lastId : Option String) (cnt : Nat),
      addSectionInnerPageNumsAux
        [({ sectProps := some LP, elements := [p3] } : Section)] lastId cnt =
      (if LP.id ≠ lastId then
        [{ sectProps := some { LP with pageWithinSection := 1 }, elements := [p3] }]
      else
        [{ sectProps := some { LP with pageWithinSection := cnt + 1 }, elements := [p3] }]) :=
    fun lastId cnt => rfl
  rw [e1]
  by_cases hS1 : S1.id = some ""
  · rw [if_neg (not_not_intro hS1), e2 (some "") (0 + 1),
      if_pos (show LP.id ≠ some "" from fun hc => hid (hS1.trans hc.symm))]
  · rw [if_pos hS1, e2 S1.id 1,
      if_pos (show LP.id ≠ S1.id from fun hc => hid hc.symm)]

/-- Concrete instances for the C6 witness. -/
def cP1 : Element := paraOf none none (some [runOf [txtEl]])

/-- The second paragraph, carrying `propsS1`. -/
def cP2 : Element := paraOf none (some propsS1) (some [runOf [txtEl]])

/-- The third paragraph. -/
def cP3 : Element := paraOf none none (some [runOf [txtEl]])

/-- Witness for C6 at concrete paragraphs and properties. -/
theorem c6_witness :
    (splitBySection none optsNoBreak [cP1, cP2, cP3] (some propsLast)).1 =
      [{ sectProps := some { propsS1 with pageWithinSection := 1 }, elements := [cP1, cP2] },
       { sectProps := some { propsLast with pageWithinSection := 1 }, elements := [cP3] }] :=
  c6_section_properties_split none optsNoBreak cP1 cP2 cP3 propsS1 propsLast
    rfl rfl rfl rfl rfl rfl rfl rfl rfl rfl rfl rfl (by decide)

/-- A two-element list whose first element has rendered content is not a
first-render position. -/
theorem isFirstRenderElement_pair (a b : Element) (h : elementHasContent a = true) :
    isFirstRenderElement (a :: [b]) = false := by
  show (!elementHasContent a && true) = false
  rw [h]
  rfl

/-- A paragraph whose manual break is its first child: the current section is
closed without it and the paragraph moves wholly, unsplit, into the fresh
section. -/
theorem splitStep_break0 (sm : Option (List (String × IDomStyle))) (opts : Options)
    (st : SplitState) (e : Element) (rb : Int)
    (hp : e.etype = DomType.paragraph) (hpbb : pageBreakBeforeOf sm e = false)
    (hsp : e.sectionProps = none) (hfb : findBreak opts e = (0, rb))
    (hfirst : isFirstRenderElement (st.current.elements ++ [e]) = false) :
    splitStep sm opts st e =
      ({ committed := st.committed ++ [st.current],
         current := { sectProps := none, elements := [e] },
         sectPropsVar := none }, e) := by
  have hpb : paraPb opts e = 0 := by unfold paraPb; rw [hfb]; rfl
  have hds : paraDoSplit opts e = false := by unfold paraDoSplit; rw [hpb]; rfl
  have hef : paraElemFinal opts e = e := by unfold paraElemFinal; rw [hds]; rfl
  unfold splitStep
  rw [if_neg (by simp [hp])]
  simp only [hpbb, hsp, hpb, hds, hef, hfirst, Bool.false_eq_true, if_false, cloneOpt]
  norm_num

/-- A four-child paragraph whose break run `rB` sits at index 2 with the break
closing that run (no bookmark widening at index 1): the paragraph is split —
the closing section keeps the pre-break children and the fragment with the
break run and the tail opens the fresh section. -/
theorem splitStep_breakSplit (sm : Option (List (String × IDomStyle))) (opts : Options)
    (st : SplitState) (e c0 c1 rB c3 : Element) (rbc : List Element)
    (hp : e.etype = DomType.paragraph) (hpbb : pageBreakBeforeOf sm e = false)
    (hsp : e.sectionProps = none) (hch : e.children = some [c0, c1, rB, c3])
    (hc1 : ¬ c1.etype = DomType.bookmarkStart) (hrc : rB.children = some rbc)
    (hfb : findBreak opts e = (2, (rbc.length : Int) - 1))
    (hfirst : isFirstRenderElement (st.current.elements ++ [e]) = false) :
    splitStep sm opts st e =
      ({ committed := st.committed ++
           [{ st.current with
               elements := st.current.elements ++ [e.withChildren (some [c0, c1])] }],
         current := { sectProps := none, elements := [e.withChildren (some [rB, c3])] },
         sectPropsVar := none }, e.withChildren (some [c0, c1])) := by
  have hw : widenOverBookmarks [c0, c1, rB, c3] 2 = 2 := by
    show (if c1.etype = DomType.bookmarkStart
      then widenOverBookmarks [c0, c1, rB, c3] 1 else 2) = 2
    exact if_neg hc1
  have hpb : paraPb opts e = 2 := by
    unfold paraPb
    rw [hfb, hch]
    show ((widenOverBookmarks [c0, c1, rB, c3] (2 : Int).toNat : Nat) : Int) = 2
    rw [show (2 : Int).toNat = 2 from rfl, hw]
    rfl
  have hbr : paraBreakRun opts e = rB := by
    unfold paraBreakRun
    rw [hpb, hch]
    rfl
  have hrb : paraRb opts e = (rbc.length : Int) - 1 := by
    unfold paraRb; rw [hfb]
  have hsr : paraSplitRun opts e = false := by
    unfold paraSplitRun
    rw [hrb, hbr, hrc]
    simp
  have hds : paraDoSplit opts e = true := by
    unfold paraDoSplit
    rw [hpb, hch, hbr, hrc]
    simp
  have hef : paraElemFinal opts e = e.withChildren (some [c0, c1]) := by
    unfold paraElemFinal
    rw [hds, hsr, hch, hpb]
    rfl
  have hnp : paraNewParagraph opts e = e.withChildren (some [rB, c3]) := by
    unfold paraNewParagraph
    rw [hsr, hch, hpb]
    rfl
  unfold splitStep
  rw [if_neg (by simp [hp])]
  simp only [hpbb, hsp, hpb, hds, hef, hnp, hfirst, Bool.false_eq_true, if_false, cloneOpt]
  norm_num

/-! ### C7: manual-break placement inside the second paragraph -/

/-- A paragraph whose manual break is its first child. -/
def qA : Element := paraOf none none (some [runOf [brkPage], runOf [txtEl]])

/-- A three-run paragraph whose last run is exactly the manual break. -/
def qB3 : Element :=
  paraOf none none (some [runOf [txtEl], runOf [txtEl], runOf [brkPage]])

/-- C7 counterexample: the second paragraph has three children and its manual
break sits at child index 2, yet no truncation happens — the paragraph stays
whole in the first section and the following section opens empty, because the
break is the paragraph's last child and closes its run. -/
theorem c7_counterexample :
    (splitBySection none optsBreak [cPara1, qB3] (some propsLast)).1 =
      [Section.mk (some { propsLast with pageWithinSection := 1 }) [cPara1, qB3],
       Section.mk (some { propsLast with pageWithinSection := 2 }) []] ∧
    (splitBySection none optsBreak [cPara1, qB3] (some propsLast)).2 =
      [cPara1, qB3] :=
  ⟨rfl, rfl⟩

/-- C7 (amended): with a preceding content paragraph `p1`, (a) a manual break
that is the first child of the second paragraph moves that paragraph wholly and
unsplit into a new section, and (b) a manual break closing run `rB` at child
index 2 of a four-child second paragraph truncates it in the closing section
to its two pre-break children while the fragment `[rB, c3]` opens the next
section; with exactly three children and the break closing the last run no
split occurs (see the counterexample). -/
theorem c7_break_placement (sm : Option (List (String × IDomStyle))) (opts : Options)
    (p1 pA pB c0 c1 rB c3 : Element) (rbA : Int) (rbc : List Element)
    (LP : SectionProperties)
    (hp1 : p1.etype = DomType.paragraph) (hb1 : pageBreakBeforeOf sm p1 = false)
    (hs1 : p1.sectionProps = none) (hf1 : findBreak opts p1 = (-1, -1))
    (hc1 : elementHasContent p1 = true)
    (hpA : pA.etype = DomType.paragraph) (hbA : pageBreakBeforeOf sm pA = false)
    (hsA : pA.sectionProps = none) (hfA : findBreak opts pA = (0, rbA))
    (hpB : pB.etype = DomType.paragraph) (hbB : pageBreakBeforeOf sm pB = false)
    (hsB : pB.sectionProps = none) (hchB : pB.children = some [c0, c1, rB, c3])
    (hc1B : ¬ c1.etype = DomType.bookmarkStart) (hrcB : rB.children = some rbc)
    (hfB : findBreak opts pB = (2, (rbc.length : Int) - 1))
    (hLP : LP.id ≠ some "") :
    ((splitBySection sm opts [p1, pA] (some LP)).1 =
       [Section.mk (some { LP with pageWithinSection := 1 }) [p1],
        Section.mk (some { LP with pageWithinSection := 2 }) [pA]] ∧
     (splitBySection sm opts [p1, pA] (some LP)).2 = [p1, pA]) ∧
    ((splitBySection sm opts [p1, pB] (some LP)).1 =
       [Section.mk (some { LP with pageWithinSection := 1 })
          [p1, pB.withChildren (some [c0, c1])],
        Section.mk (some { LP with pageWithinSection := 2 })
          [pB.withChildren (some [rB, c3])]] ∧
     (splitBySection sm opts [p1, pB] (some LP)).2 =
       [p1, pB.withChildren (some [c0, c1])]) := by
  have h1 : splitStep sm opts
      { committed := [], current := { sectProps := none, elements := [] },
        sectPropsVar := none } p1 =
      ({ committed := [], current := { sectProps := none, elements := [p1] },
         sectPropsVar := none }, p1) := by
    rw [splitStep_plain sm opts _ p1 hp1 hb1 hs1 hf1]
    simp
  have h2A : splitStep sm opts
      ({ committed := [], current := { sectProps := none, elements := [p1] },
         sectPropsVar := none } : SplitState) pA =
      ({ committed := [{ sectProps := none, elements := [p1] }],
         current := { sectProps := none, elements := [pA] },
         sectPropsVar := none }, pA) := by
    rw [splitStep_break0 sm opts
      ({ committed := [], current := { sectProps := none, elements := [p1] },
         sectPropsVar := none } : SplitState) pA rbA hpA hbA hsA hfA
      (isFirstRenderElement_pair p1 pA hc1)]
    simp
  have h2B : splitStep sm opts
      ({ committed := [], current := { sectProps := none, elements := [p1] },
         sectPropsVar := none } : SplitState) pB =
      ({ committed :=
           [{ sectProps := none,
              elements := [p1, pB.withChildren (some [c0, c1])] }],
         current :=
           { sectProps := none,
             elements := [pB.withChildren (some [rB, c3])] },
         sectPropsVar := none }, pB.withChildren (some [c0, c1])) := by
    rw [splitStep_breakSplit sm opts
      ({ committed := [], current := { sectProps := none, elements := [p1] },
         sectPropsVar := none } : SplitState) pB c0 c1 rB c3 rbc hpB hbB hsB hchB hc1B hrcB hfB
      (isFirstRenderElement_pair p1 pB hc1)]
    simp
  have numsTwo : ∀ (as bs : List Element),
      addSectionInnerPageNums
        [({ sectProps := some LP, elements := as } : Section),
         ({ sectProps := some LP, elements := bs } : Section)] =
      [({ sectProps := some { LP with pageWithinSection := 1 }, elements := as } : Section),
       ({ sectProps := some { LP with pageWithinSection := 2 }, elements := bs } : Section)] := by
    intro as bs
    have e1 : addSectionInnerPageNums
        [({ sectProps := some LP, elements := as } : Section),
         ({ sectProps := some LP, elements := bs } : Section)] =
        (if LP.id ≠ some "" then
          { sectProps := some { LP with pageWithinSection := 1 }, elements := as } ::
            addSectionInnerPageNumsAux
              [{ sectProps := some LP, elements := bs }] LP.id 1
        else
          { sectProps := some { LP with pageWithinSection := 0 + 1 }, elements := as } ::
            addSectionInnerPageNumsAux
              [{ sectProps := some LP, elements := bs }] (some "") (0 + 1)) := rfl
    have e2 : addSectionInnerPageNumsAux
        [({ sectProps := some LP, elements := bs } : Section)] LP.id 1 =
        (if LP.id ≠ LP.id then
          [{ sectProps := some { LP with pageWithinSection := 1 }, elements := bs }]
        else
          [{ sectProps := some { LP with pageWithinSection := 1 + 1 }, elements := bs }]) := rfl
    rw [e1, if_pos hLP, e2, if_neg (not_not_intro rfl)]
  constructor
  · have hfold : splitBySection sm opts [p1, pA] (some LP) =
        (addSectionInnerPageNums (backwardFill
          [({ sectProps := none, elements := [p1] } : Section),
           ({ sectProps := some LP, elements := [pA] } : Section)]), [p1, pA]) := by
      unfold splitBySection
      simp only [List.foldl_cons, List.foldl_nil]
      rw [h1]
      simp only []
      rw [h2A]
      simp
    rw [hfold]
    have hbf : backwardFill
        [({ sectProps := none, elements := [p1] } : Section),
         ({ sectProps := some LP, elements := [pA] } : Section)] =
        [({ sectProps := some LP, elements := [p1] } : Section),
         ({ sectProps := some LP, elements := [pA] } : Section)] := rfl
    rw [hbf, numsTwo]
    exact ⟨rfl, rfl⟩
  · have hfold : splitBySection sm opts [p1, pB] (some LP) =
        (addSectionInnerPageNums (backwardFill
          [({ sectProps := none,
              elements := [p1, pB.withChildren (some [c0, c1])] } : Section),
           ({ sectProps := some LP,
              elements := [pB.withChildren (some [rB, c3])] } : Section)]),
         [p1, pB.withChildren (some [c0, c1])]) := by
      unfold splitBySection
      simp only [List.foldl_cons, List.foldl_nil]
      rw [h1]
      simp only []
      rw [h2B]
      simp
    rw [hfold]
    have hbf : backwardFill
        [({ sectProps := none,
            elements := [p1, pB.withChildren (some [c0, c1])] } : Section),
         ({ sectProps := some LP,
            elements := [pB.withChildren (some [rB, c3])] } : Section)] =
        [({ sectProps := some LP,
            elements := [p1, pB.withChildren (some [c0, c1])] } : Section),
         ({ sectProps := some LP,
            elements := [pB.withChildren (some [rB, c3])] } : Section)] := rfl
    rw [hbf, numsTwo]
    exact ⟨rfl, rfl⟩

/-- A four-run paragraph: two text runs, the break run, a trailing text run. -/
def qB4 : Element :=
  paraOf none none (some [runOf [txtEl], runOf [txtEl], runOf [brkPage], runOf [txtEl]])

/-- Witness for C7 at concrete paragraphs. -/
theorem c7_witness :
    ((splitBySection none optsBreak [cPara1, qA] (some propsLast)).1 =
       [Section.mk (some { propsLast with pageWithinSection := 1 }) [cPara1],
        Section.mk (some { propsLast with pageWithinSection := 2 }) [qA]] ∧
     (splitBySection none optsBreak [cPara1, qA] (some propsLast)).2 = [cPara1, qA]) ∧
    ((splitBySection none optsBreak [cPara1, qB4] (some propsLast)).1 =
       [Section.mk (some { propsLast with pageWithinSection := 1 })
          [cPara1, qB4.withChildren (some [runOf [txtEl], runOf [txtEl]])],
        Section.mk (some { propsLast with pageWithinSection := 2 })
          [qB4.withChildren (some [runOf [brkPage], runOf [txtEl]])]] ∧
     (splitBySection none optsBreak [cPara1, qB4] (some propsLast)).2 =
       [cPara1, qB4.withChildren (some [runOf [txtEl], runOf [txtEl]])]) :=
  c7_break_placement none optsBreak cPara1 qA qB4
    (runOf [txtEl]) (runOf [txtEl]) (runOf [brkPage]) (runOf [txtEl]) 0 [brkPage]
    propsLast rfl rfl rfl rfl rfl rfl rfl rfl rfl rfl rfl rfl rfl
    (by decide) rfl rfl (by decide)

/-! ### C8: bookmarks immediately before a manual break -/

/-- Step form of the widening loop at a successor index with a known child. -/
theorem widenOverBookmarks_succ_some (cs : List Element) (n : Nat) (e : Element)
    (hg : cs.get? n = some e) :
    widenOverBookmarks cs (n + 1) =
      if e.etype = DomType.bookmarkStart then widenOverBookmarks cs n else n + 1 := by
  have h1 : widenOverBookmarks cs (n + 1) =
      match cs.get? n with
      | some e => if e.etype = DomType.bookmarkStart then widenOverBookmarks cs n else n + 1
      | none => n + 1 := rfl
  rw [h1, hg]

/-- The widening loop walks back over a block of bookmark-start markers and
stops at the first non-bookmark child before them. -/
theorem widenOverBookmarks_skip (pre0 : List Element) (plast : Element)
    (hplast : ¬ plast.etype = DomType.bookmarkStart) :
    ∀ (bms rest : List Element), (∀ b ∈ bms, b.etype = DomType.bookmarkStart) →
    widenOverBookmarks ((pre0 ++ [plast]) ++ (bms ++ rest))
      ((pre0 ++ [plast]).length + bms.length) = (pre0 ++ [plast]).length := by
  intro bms
  induction bms using List.reverseRecOn with
  | nil =>
    intro rest _
    have hlen : (pre0 ++ [plast]).length + ([] : List Element).length = pre0.length + 1 := by
      simp
    rw [hlen]
    have hg : ((pre0 ++ [plast]) ++ ([] ++ rest)).get? pre0.length = some plast := by
      rw [List.get?_append (by simp)]
      exact List.get?_concat_length pre0 plast
    rw [widenOverBookmarks_succ_some _ _ _ hg, if_neg hplast]
    simp
  | append_singleton bs b ih =>
    intro rest hb
    have hbook : b.etype = DomType.bookmarkStart := hb b (by simp)
    have hbs : ∀ x ∈ bs, x.etype = DomType.bookmarkStart := fun x hx => hb x (by simp [hx])
    have hlen : (pre0 ++ [plast]).length + (bs ++ [b]).length =
        ((pre0 ++ [plast]).length + bs.length) + 1 := by
      simp [List.length_append]
      omega
    rw [hlen]
    have hg : ((pre0 ++ [plast]) ++ ((bs ++ [b]) ++ rest)).get?
        ((pre0 ++ [plast]).length + bs.length) = some b := by
      rw [List.get?_append_right (by omega)]
      have hsub : (pre0 ++ [plast]).length + bs.length - (pre0 ++ [plast]).length =
          bs.length := by omega
      rw [hsub, List.get?_append (by simp), List.get?_concat_length]
    rw [widenOverBookmarks_succ_some _ _ _ hg, if_pos hbook,
      show (bs ++ [b]) ++ rest = bs ++ ([b] ++ rest) from List.append_assoc _ _ _]
    exact ih ([b] ++ rest) hbs

/-- A paragraph whose manual break run is immediately preceded by a block of
bookmark-start markers (the last pre-break content child is not a bookmark):
the break index widens back over the bookmarks, the closing section keeps only
the children before the bookmarks, and the fragment opening the next section
starts with all the bookmarks followed by the break run and the tail.
Modelled from the spec: the bookmark-start elements (document/bookmark.ts,
not under src/) carry an owned empty children list, which is what lets the
widened break run pass the `breakRun.children` guard. -/
theorem splitStep_breakBookmarks (sm : Option (List (String × IDomStyle))) (opts : Options)
    (st : SplitState) (p plast b0 breakRun : Element)
    (pre0 bs post : List Element) (rb : Int)
    (hp : p.etype = DomType.paragraph) (hpbb : pageBreakBeforeOf sm p = false)
    (hsp : p.sectionProps = none)
    (hch : p.children = some ((pre0 ++ [plast]) ++ ((b0 :: bs) ++ (breakRun :: post))))
    (hplast : ¬ plast.etype = DomType.bookmarkStart)
    (hbmk : ∀ b ∈ b0 :: bs, b.etype = DomType.bookmarkStart)
    (hbch : b0.children = some []) (hrb : 0 ≤ rb)
    (hfb : findBreak opts p =
      ((((pre0 ++ [plast]).length + (b0 :: bs).length : Nat) : Int), rb))
    (hfirst : isFirstRenderElement (st.current.elements ++ [p]) = false) :
    splitStep sm opts st p =
      ({ committed := st.committed ++
           [{ st.current with
               elements := st.current.elements ++
                 [p.withChildren (some (pre0 ++ [plast]))] }],
         current :=
           { sectProps := none,
             elements := [p.withChildren (some ((b0 :: bs) ++ (breakRun :: post)))] },
         sectPropsVar := none }, p.withChildren (some (pre0 ++ [plast]))) := by
  have hgt : ((((pre0 ++ [plast]).length + (b0 :: bs).length : Nat) : Int)) > 0 := by
    have : 0 < (pre0 ++ [plast]).length + (b0 :: bs).length := by simp
    exact_mod_cast this
  have hpb : paraPb opts p = (((pre0 ++ [plast]).length : Nat) : Int) := by
    unfold paraPb
    rw [hfb]
    rw [if_pos hgt, hch]
    show ((widenOverBookmarks ((pre0 ++ [plast]) ++ ((b0 :: bs) ++ (breakRun :: post)))
        ((pre0 ++ [plast]).length + (b0 :: bs).length) : Nat) : Int) =
      (((pre0 ++ [plast]).length : Nat) : Int)
    rw [widenOverBookmarks_skip pre0 plast hplast (b0 :: bs) (breakRun :: post) hbmk]
  have hbr : paraBreakRun opts p = b0 := by
    unfold paraBreakRun
    rw [hpb, hch]
    show ((((pre0 ++ [plast]) ++ ((b0 :: bs) ++ (breakRun :: post))).get?
        ((pre0 ++ [plast]).length)).getD p) = b0
    rw [List.get?_append_right (le_refl _)]
    simp
  have hbrc : (paraBreakRun opts p).children = some [] := by rw [hbr]; exact hbch
  have hrbv : paraRb opts p = rb := by unfold paraRb; rw [hfb]
  have hsr : paraSplitRun opts p = false := by
    unfold paraSplitRun
    rw [hrbv, hbrc]
    simp only [Option.getD_some, List.length_nil, Nat.cast_zero]
    exact decide_eq_false (by omega)
  have hds : paraDoSplit opts p = true := by
    unfold paraDoSplit
    rw [hpb, hch, hbrc]
    simp only [Option.isSome_some, Option.getD_some, List.length_append, List.length_cons,
      List.length_singleton, Bool.and_true, Bool.true_and, Bool.and_eq_true, Bool.or_eq_true,
      decide_eq_true_eq]
    refine ⟨⟨?_, ?_⟩, Or.inl ?_⟩ <;> push_cast <;> omega
  have hef : paraElemFinal opts p = p.withChildren (some (pre0 ++ [plast])) := by
    unfold paraElemFinal
    rw [hds, hsr, hch, hpb]
    show p.withChildren (some (((pre0 ++ [plast]) ++ ((b0 :: bs) ++ (breakRun :: post))).take
        ((pre0 ++ [plast]).length))) = _
    rw [List.take_left]
  have hnp : paraNewParagraph opts p =
      p.withChildren (some ((b0 :: bs) ++ (breakRun :: post))) := by
    unfold paraNewParagraph
    rw [hsr, hch, hpb]
    show p.withChildren (some (((pre0 ++ [plast]) ++ ((b0 :: bs) ++ (breakRun :: post))).drop
        ((pre0 ++ [plast]).length))) = _
    rw [List.drop_left]
  have hpb0 : ¬ ((((pre0 ++ [plast]).length : Nat) : Int) = 0) := by
    simp
    omega
  have hd0 : decide ((((pre0 ++ [plast]).length : Nat) : Int) = 0) = false :=
    decide_eq_false hpb0
  have hgt1 : decide ((((pre0 ++ [plast]).length : Nat) : Int) > -1) = true :=
    decide_eq_true (by omega)
  unfold splitStep
  rw [if_neg (by simp [hp])]
  simp only [hpbb, hsp, hpb, hds, hef, hnp, hfirst, hd0, hgt1, Bool.false_eq_true, if_false,
    cloneOpt, Bool.and_false, Bool.and_true, Bool.true_and, Bool.false_and]
  norm_num
  refine ⟨?_, ?_⟩ <;>
    rw [if_neg (show ¬ ((pre0.length : Int) + 1 = 0) from by omega)]

/-- Two consecutive sections sharing the same (non-empty-string) properties id
get inner page numbers 1 and 2. -/
theorem addNums_two_same (LP : SectionProperties) (hLP : LP.id ≠ some "")
    (as bs : List Element) :
    addSectionInnerPageNums
      [({ sectProps := some LP, elements := as } : Section),
       ({ sectProps := some LP, elements := bs } : Section)] =
    [({ sectProps := some { LP with pageWithinSection := 1 }, elements := as } : Section),
     ({ sectProps := some { LP with pageWithinSection := 2 }, elements := bs } : Section)] := by
  have e1 : addSectionInnerPageNums
      [({ sectProps := some LP, elements := as } : Section),
       ({ sectProps := some LP, elements := bs } : Section)] =
      (if LP.id ≠ some "" then
        { sectProps := some { LP with pageWithinSection := 1 }, elements := as } ::
          addSectionInnerPageNumsAux
            [{ sectProps := some LP, elements := bs }] LP.id 1
      else
        { sectProps := some { LP with pageWithinSection := 0 + 1 }, elements := as } ::
          addSectionInnerPageNumsAux
            [{ sectProps := some LP, elements := bs }] (some "") (0 + 1)) := rfl
  have e2 : addSectionInnerPageNumsAux
      [({ sectProps := some LP, elements := bs } : Section)] LP.id 1 =
      (if LP.id ≠ LP.id then
        [{ sectProps := some { LP with pageWithinSection := 1 }, elements := bs }]
      else
        [{ sectProps := some { LP with pageWithinSection := 1 + 1 }, elements := bs }]) := rfl
  rw [e1, if_pos hLP, e2, if_neg (not_not_intro rfl)]

/-- C8: in `[p1, p]` where `p1` has rendered content and `p`'s manual break
run is immediately preceded by bookmark-start markers `b0 :: bs` (the child
before them not a bookmark), the split relocates every bookmark into the
section that follows the break: the preceding section keeps `p` truncated to
`pre0 ++ [plast]` — no trailing bookmark — and the next section opens with the
fragment `(b0 :: bs) ++ breakRun :: post` holding all the bookmarks exactly
once; concatenating the two children lists gives back the original, so no
bookmark is duplicated or dropped.
Modelled from the spec: bookmark-start elements (document/bookmark.ts, not
under src/) carry an owned empty children list. -/
theorem c8_bookmarks_relocate (sm : Option (List (String × IDomStyle))) (opts : Options)
    (p1 p plast b0 breakRun : Element) (pre0 bs post : List Element) (rb : Int)
    (LP : SectionProperties)
    (hp1 : p1.etype = DomType.paragraph) (hb1 : pageBreakBeforeOf sm p1 = false)
    (hs1 : p1.sectionProps = none) (hf1 : findBreak opts p1 = (-1, -1))
    (hc1 : elementHasContent p1 = true)
    (hp : p.etype = DomType.paragraph) (hpbb : pageBreakBeforeOf sm p = false)
    (hsp : p.sectionProps = none)
    (hch : p.children = some ((pre0 ++ [plast]) ++ ((b0 :: bs) ++ (breakRun :: post))))
    (hplast : ¬ plast.etype = DomType.bookmarkStart)
    (hbmk : ∀ b ∈ b0 :: bs, b.etype = DomType.bookmarkStart)
    (hbch : b0.children = some []) (hrb : 0 ≤ rb)
    (hfb : findBreak opts p =
      ((((pre0 ++ [plast]).length + (b0 :: bs).length : Nat) : Int), rb))
    (hLP : LP.id ≠ some "") :
    (splitBySection sm opts [p1, p] (some LP)).1 =
      [Section.mk (some { LP with pageWithinSection := 1 })
         [p1, p.withChildren (some (pre0 ++ [plast]))],
       Section.mk (some { LP with pageWithinSection := 2 })
         [p.withChildren (some ((b0 :: bs) ++ (breakRun :: post)))]] ∧
    (splitBySection sm opts [p1, p] (some LP)).2 =
      [p1, p.withChildren (some (pre0 ++ [plast]))] := by
  have h1 : splitStep sm opts
      { committed := [], current := { sectProps := none, elements := [] },
        sectPropsVar := none } p1 =
      ({ committed := [], current := { sectProps := none, elements := [p1] },
         sectPropsVar := none }, p1) := by
    rw [splitStep_plain sm opts _ p1 hp1 hb1 hs1 hf1]
    simp
  have h2 : splitStep sm opts
      ({ committed := [], current := { sectProps := none, elements := [p1] },
         sectPropsVar := none } : SplitState) p =
      ({ committed :=
           [{ sectProps := none,
              elements := [p1, p.withChildren (some (pre0 ++ [plast]))] }],
         current :=
           { sectProps := none,
             elements := [p.withChildren (some ((b0 :: bs) ++ (breakRun :: post)))] },
         sectPropsVar := none }, p.withChildren (some (pre0 ++ [plast]))) := by
    rw [splitStep_breakBookmarks sm opts
      ({ committed := [], current := { sectProps := none, elements := [p1] },
         sectPropsVar := none } : SplitState) p plast b0 breakRun pre0 bs post rb
      hp hpbb hsp hch hplast hbmk hbch hrb hfb
      (isFirstRenderElement_pair p1 p hc1)]
    simp
  have hfold : splitBySection sm opts [p1, p] (some LP) =
      (addSectionInnerPageNums (backwardFill
        [({ sectProps := none,
            elements := [p1, p.withChildren (some (pre0 ++ [plast]))] } : Section),
         ({ sectProps := some LP,
            elements := [p.withChildren (some ((b0 :: bs) ++ (breakRun :: post)))] } :
           Section)]),
       [p1, p.withChildren (some (pre0 ++ [plast]))]) := by
    unfold splitBySection
    simp only [List.foldl_cons, List.foldl_nil]
    rw [h1]
    simp only []
    rw [h2]
    simp
  rw [hfold]
  have hbf : backwardFill
      [({ sectProps := none,
          elements := [p1, p.withChildren (some (pre0 ++ [plast]))] } : Section),
       ({ sectProps := some LP,
          elements := [p.withChildren (some ((b0 :: bs) ++ (breakRun :: post)))] } :
         Section)] =
      [({ sectProps := some LP,
          elements := [p1, p.withChildren (some (pre0 ++ [plast]))] } : Section),
       ({ sectProps := some LP,
          elements := [p.withChildren (some ((b0 :: bs) ++ (breakRun :: post)))] } :
         Section)] := rfl
  rw [hbf, addNums_two_same LP hLP]
  exact ⟨rfl, rfl⟩

/-- A paragraph with a text run, then a bookmark start, then the break run,
then a trailing text run. -/
def qBm : Element :=
  paraOf none none (some [runOf [txtEl], bookmarkEl, runOf [brkPage], runOf [txtEl]])

/-- Witness for C8 at a concrete bookmark-before-break paragraph. -/
theorem c8_witness :
    (splitBySection none optsBreak [cPara1, qBm] (some propsLast)).1 =
      [Section.mk (some { propsLast with pageWithinSection := 1 })
         [cPara1, qBm.withChildren (some ([] ++ [runOf [txtEl]]))],
       Section.mk (some { propsLast with pageWithinSection := 2 })
         [qBm.withChildren (some ([bookmarkEl] ++ (runOf [brkPage] :: [runOf [txtEl]])))]] ∧
    (splitBySection none optsBreak [cPara1, qBm] (some propsLast)).2 =
      [cPara1, qBm.withChildren (some ([] ++ [runOf [txtEl]]))] :=
  c8_bookmarks_relocate none optsBreak cPara1 qBm (runOf [txtEl]) bookmarkEl
    (runOf [brkPage]) [] [] [runOf [txtEl]] 0 propsLast
    rfl rfl rfl rfl rfl rfl rfl rfl rfl (by decide) (by decide) rfl (by decide) rfl
    (by decide)

/-! ### C4: acyclic basedOn chains — key-uniqueness and declaration counts -/

/-- The in-place replace of `setKey` keeps the key list unchanged. -/
theorem keysOf_mapReplace (m : StrMap) (k v : String) :
    keysOf (m.map (fun p => if p.1 = k then (k, v) else p)) = keysOf m := by
  unfold keysOf
  rw [List.map_map]
  apply List.map_congr_left
  intro p _
  by_cases h : p.1 = k
  · simp [h]
  · simp [h]

/-- `setKey` on a present key keeps the key list. -/
theorem keysOf_setKey_hasKey (m : StrMap) (k v : String) (h : hasKey m k = true) :
    keysOf (setKey m k v) = keysOf m := by
  unfold setKey
  rw [if_pos h, keysOf_mapReplace]

/-- `setKey` on an absent key appends it. -/
theorem keysOf_setKey_not (m : StrMap) (k v : String) (h : hasKey m k = false) :
    keysOf (setKey m k v) = keysOf m ++ [k] := by
  unfold setKey
  rw [if_neg (by simp [h])]
  unfold keysOf
  simp

/-- `setKey` preserves key uniqueness. -/
theorem nodup_keysOf_setKey (m : StrMap) (k v : String) (h : nodupB (keysOf m) = true) :
    nodupB (keysOf (setKey m k v)) = true := by
  cases hk : hasKey m k
  · rw [keysOf_setKey_not m k v hk]
    refine nodupB_append_singleton _ _ ?_ h
    intro hmem
    exact absurd ((mem_keysOf_iff_hasKey m k).mp hmem) (by simp [hk])
  · rw [keysOf_setKey_hasKey m k v hk]
    exact h

/-- The `copyStyleProperties` loop body preserves key uniqueness of the
output record. -/
theorem nodup_keysOf_cspStep (inp : StrMap) (ov : Bool) (out : StrMap) (k : String)
    (h : nodupB (keysOf out) = true) : nodupB (keysOf (cspStep inp ov out k)) = true := by
  unfold cspStep
  by_cases hc : (hasKey inp k && (ov || !hasKey out k)) = true
  · rw [if_pos hc]
    exact nodup_keysOf_setKey out k _ h
  · rw [if_neg hc]
    exact h

/-- The whole `copyStyleProperties` fold preserves key uniqueness. -/
theorem nodup_keysOf_cspFold (inp : StrMap) (ov : Bool) :
    ∀ (ks : List String) (out : StrMap), nodupB (keysOf out) = true →
    nodupB (keysOf (ks.foldl (cspStep inp ov) out)) = true := by
  intro ks
  induction ks with
  | nil => intro out h; exact h
  | cons k0 ks ih =>
    intro out h
    rw [List.foldl_cons]
    exact ih _ (nodup_keysOf_cspStep inp ov out k0 h)

/-- Every block of the list has a duplicate-free property record. -/
def blocksKeysNodup (blocks : List SubStyle) : Bool :=
  blocks.all (fun ss => nodupB (keysOf ss.values))

/-- `updateFirst` with a per-block uniqueness-preserving function preserves
blockwise key uniqueness. -/
theorem blocksKeysNodup_updateFirst (p : SubStyle → Bool) (f : SubStyle → SubStyle)
    (hf : ∀ ss, nodupB (keysOf ss.values) = true → nodupB (keysOf (f ss).values) = true) :
    ∀ blocks, blocksKeysNodup blocks = true →
    blocksKeysNodup (updateFirst p f blocks) = true := by
  intro blocks
  induction blocks with
  | nil => intro h; exact h
  | cons s0 rest ih =>
    intro h
    unfold blocksKeysNodup at h
    rw [List.all_cons, Bool.and_eq_true] at h
    unfold updateFirst
    by_cases hp : p s0 = true
    · rw [if_pos hp]
      unfold blocksKeysNodup
      rw [List.all_cons, Bool.and_eq_true]
      exact ⟨hf s0 h.1, h.2⟩
    · rw [if_neg hp]
      unfold blocksKeysNodup
      rw [List.all_cons, Bool.and_eq_true]
      exact ⟨h.1, ih h.2⟩

/-- One `copyStyle` fold step preserves blockwise key uniqueness when the
incoming block is itself duplicate-free. -/
theorem blocksKeysNodup_copyBlocksStep (ov : Bool) (tgt : IDomStyle) (bss : SubStyle)
    (hb : nodupB (keysOf bss.values) = true)
    (h : blocksKeysNodup tgt.styles = true) :
    blocksKeysNodup (copyBlocksStep ov tgt bss).styles = true := by
  unfold copyBlocksStep
  by_cases hc : tgt.styles.any (fun x => decide (x.target = bss.target)) = true
  · rw [if_pos hc]
    show blocksKeysNodup (updateFirst (fun x => decide (x.target = bss.target))
      (fun s0 => { s0 with values :=
        (copyStyleProperties (some bss.values) (some s0.values) none ov).getD [] })
      tgt.styles) = true
    apply blocksKeysNodup_updateFirst _ _ ?_ tgt.styles h
    intro ss hss
    show nodupB (keysOf ((keysOf bss.values).foldl (cspStep bss.values ov) ss.values)) = true
    exact nodup_keysOf_cspFold bss.values ov (keysOf bss.values) ss.values hss
  · rw [if_neg hc]
    show blocksKeysNodup (tgt.styles ++ [bss]) = true
    unfold blocksKeysNodup
    rw [List.all_append, Bool.and_eq_true]
    exact ⟨h, by simp [hb]⟩

/-- The `copyStyle` fold preserves blockwise key uniqueness. -/
theorem blocksKeysNodup_foldSteps (ov : Bool) :
    ∀ (bs : List SubStyle) (tgt : IDomStyle),
    blocksKeysNodup bs = true → blocksKeysNodup tgt.styles = true →
    blocksKeysNodup ((bs.foldl (copyBlocksStep ov) tgt).styles) = true := by
  intro bs
  induction bs with
  | nil => intro tgt _ ht; exact ht
  | cons b rest ih =>
    intro tgt hbs ht
    unfold blocksKeysNodup at hbs
    rw [List.all_cons, Bool.and_eq_true] at hbs
    rw [List.foldl_cons]
    exact ih _ hbs.2 (blocksKeysNodup_copyBlocksStep ov tgt b hbs.1 ht)

/-- `copyStyle` preserves blockwise key uniqueness. -/
theorem blocksKeysNodup_copyStyle (base tgt : IDomStyle) (ov : Bool)
    (hb : blocksKeysNodup base.styles = true) (ht : blocksKeysNodup tgt.styles = true) :
    blocksKeysNodup (copyStyle base tgt ov).styles = true := by
  rw [copyStyle_eq_foldl]
  exact blocksKeysNodup_foldSteps ov base.styles tgt hb ht

/-- How many times a style declares property `k` for target kind `t`,
summed over all its blocks. -/
def declCount (s : IDomStyle) (t k : String) : Nat :=
  (s.styles.map (fun ss =>
    if ss.target = t then (ss.values.filter (fun p => decide (p.1 = k))).length else 0)).sum

/-- In a duplicate-free record a key occurs once when present, else not at
all. -/
theorem filter_key_length (k : String) :
    ∀ (m : StrMap), nodupB (keysOf m) = true →
    (m.filter (fun p => decide (p.1 = k))).length =
      if (getKey m k).isSome then 1 else 0 := by
  intro m
  induction m with
  | nil => intro _; rfl
  | cons p rest ih =>
    intro hnd
    obtain ⟨hnp, hnd'⟩ := (nodupB_cons_iff p.1 (keysOf rest)).mp hnd
    by_cases hk : p.1 = k
    · rw [List.filter_cons_of_pos (by simp [hk])]
      have hrest : hasKey rest k = false := by
        cases hh : hasKey rest k
        · rfl
        · exact absurd ((mem_keysOf_iff_hasKey rest k).mpr hh) (hk ▸ hnp)
      have hflt : (rest.filter (fun p => decide (p.1 = k))).length = 0 := by
        rw [ih hnd', hasKey_false_getKey rest k hrest]
        rfl
      rw [List.length_cons, hflt, getKey_cons, if_pos hk]
      rfl
    · rw [List.filter_cons_of_neg (by simp [hk]), getKey_cons, if_neg hk]
      exact ih hnd'

/-- Blocks of other target kinds contribute no declarations. -/
theorem declBlocks_zero (t k : String) :
    ∀ blocks : List SubStyle, t ∉ blocks.map (·.target) →
    ((blocks.map (fun ss =>
      if ss.target = t then (ss.values.filter (fun p => decide (p.1 = k))).length
      else 0)).sum) = 0 := by
  intro blocks
  induction blocks with
  | nil => intro _; rfl
  | cons ss rest ih =>
    intro h
    rw [List.map_cons, List.sum_cons]
    have hne : ¬ ss.target = t := fun hc => h (by simp [hc])
    have h' : t ∉ rest.map (·.target) := fun hm => h (by simp [hm])
    rw [if_neg hne, ih h']

/-- On a style with duplicate-free targets and records, a property is
declared exactly once when its lookup succeeds and zero times otherwise. -/
theorem declCount_eq_lookup (s : IDomStyle) (t k : String)
    (hT : nodupB (s.styles.map (·.target)) = true)
    (hK : blocksKeysNodup s.styles = true) :
    declCount s t k = if (lookupStyle s t k).isSome then 1 else 0 := by
  unfold declCount lookupStyle
  have main : ∀ blocks : List SubStyle, nodupB (blocks.map (·.target)) = true →
      blocksKeysNodup blocks = true →
      ((blocks.map (fun ss =>
        if ss.target = t then (ss.values.filter (fun p => decide (p.1 = k))).length
        else 0)).sum) =
        if (lookupBlocks blocks t k).isSome then 1 else 0 := by
    intro blocks
    induction blocks with
    | nil => intro _ _; rfl
    | cons ss rest ih =>
      intro hT hK
      obtain ⟨hn, hT'⟩ := (nodupB_cons_iff ss.target (rest.map (·.target))).mp (by simpa using hT)
      unfold blocksKeysNodup at hK
      rw [List.all_cons, Bool.and_eq_true] at hK
      rw [List.map_cons, List.sum_cons, lookupBlocks_cons]
      by_cases ht : ss.target = t
      · rw [if_pos ht, if_pos ht, declBlocks_zero t k rest (ht ▸ hn),
          filter_key_length k ss.values hK.1]
        cases hg : (getKey ss.values k).isSome <;> simp [hg]
      · rw [if_neg ht, if_neg ht, ih hT' hK.2]
        exact Nat.zero_add _
  exact main s.styles hT hK

/-- The `copyStyle` fold never changes the target style's id. -/
theorem id_foldSteps (ov : Bool) :
    ∀ (bs : List SubStyle) (tgt : IDomStyle),
    (bs.foldl (copyBlocksStep ov) tgt).id = tgt.id := by
  intro bs
  induction bs with
  | nil => intro tgt; rfl
  | cons b rest ih =>
    intro tgt
    rw [List.foldl_cons, ih]
    unfold copyBlocksStep
    by_cases h : tgt.styles.any (fun x => decide (x.target = b.target)) = true
    · rw [if_pos h]
    · rw [if_neg h]

/-- `copyStyle` keeps the target's id. -/
theorem id_copyStyle (base tgt : IDomStyle) (ov : Bool) :
    (copyStyle base tgt ov).id = tgt.id := by
  rw [copyStyle_eq_foldl]
  exact id_foldSteps ov base.styles tgt

/-- Writing a style back under its id makes it the style found at that id
(provided the id was present in the store). -/
theorem findStyle_updateStyleById_self :
    ∀ (arr : List IDomStyle) (sid : String) (s' : IDomStyle),
    (findStyle arr sid).isSome = true → s'.id = some sid →
    findStyle (updateStyleById arr sid s') sid = some s' := by
  intro arr
  induction arr with
  | nil =>
    intro sid s' h _
    exact absurd h (by simp [findStyle])
  | cons a rest ih =>
    intro sid s' h hs
    unfold updateStyleById
    by_cases ha : a.id = some sid
    · rw [if_pos ha]
      unfold findStyle
      rw [List.find?_cons_of_pos _ (by simp [hs])]
    · rw [if_neg ha]
      unfold findStyle
      rw [List.find?_cons_of_neg _ (by simp [ha])]
      have h' : (findStyle rest sid).isSome = true := by
        unfold findStyle at h
        rw [List.find?_cons_of_neg _ (by simp [ha])] at h
        exact h
      exact ih sid s' h' hs

/-- Writing a style back under its id leaves every other id's entry
unchanged. -/
theorem findStyle_updateStyleById_other :
    ∀ (arr : List IDomStyle) (sid sid' : String) (s' : IDomStyle),
    s'.id = some sid → sid' ≠ sid →
    findStyle (updateStyleById arr sid s') sid' = findStyle arr sid' := by
  intro arr
  induction arr with
  | nil => intro sid sid' s' _ _; rfl
  | cons a rest ih =>
    intro sid sid' s' hs hne
    unfold updateStyleById
    by_cases ha : a.id = some sid
    · rw [if_pos ha]
      unfold findStyle
      rw [List.find?_cons_of_neg _ (by
          simp only [decide_eq_true_eq, hs]
          intro hc
          exact hne (Option.some.inj hc).symm),
        List.find?_cons_of_neg _ (by
          simp only [decide_eq_true_eq, ha]
          intro hc
          exact hne (Option.some.inj hc).symm)]
    · rw [if_neg ha]
      unfold findStyle
      by_cases ha' : a.id = some sid'
      · rw [List.find?_cons_of_pos _ (by simp [ha']),
          List.find?_cons_of_pos _ (by simp [ha'])]
      · rw [List.find?_cons_of_neg _ (by simp [ha']),
          List.find?_cons_of_neg _ (by simp [ha'])]
        exact ih sid sid' s' hs hne

/-- Unfolding step of `resolveBaseStyle` on a style without a base. -/
theorem resolveBaseStyleFuel_none (f : Nat) (style : IDomStyle) (arr : List IDomStyle)
    (h : style.basedOn = none) :
    resolveBaseStyleFuel (f + 1) style arr = some (style, arr) := by
  unfold resolveBaseStyleFuel
  rw [h]

/-- Unfolding step of `resolveBaseStyle` on a style whose unresolved base is
found and recursively resolved: the re-fetched base is merged into the
re-fetched style, which is marked resolved and stored. -/
theorem resolveBaseStyleFuel_rec (f : Nat) (style base : IDomStyle)
    (arr arr1 : List IDomStyle) (baseId : String) (d' : IDomStyle)
    (h : style.basedOn = some baseId)
    (hfindb : findStyle arr baseId = some base)
    (hbres : base.basedOnResolved = false)
    (hrec : resolveBaseStyleFuel f base arr = some (d', arr1)) :
    resolveBaseStyleFuel (f + 1) style arr =
      (let base2 := (findStyle arr1 baseId).getD base
       let styleCur := match style.id with
         | some i => (findStyle arr1 i).getD style
         | none => style
       let style2 := { copyStyle base2 styleCur false with basedOnResolved := true }
       some (style2, storeStyle arr1 style2)) := by
  unfold resolveBaseStyleFuel
  rw [h]
  simp only [hfindb, hbres, Bool.false_eq_true, if_false, hrec]

/-- The linkage of a basedOn chain: each style's `basedOn` is the id of the
next one, and the last style has no base. -/
def chainLinked : List IDomStyle → Bool
  | [] => true
  | [c] => c.basedOn.isNone
  | c :: d :: rest => (decide (c.basedOn = d.id) && d.id.isSome) && chainLinked (d :: rest)

/-- First-defined lookup along a chain (head first: the child wins). -/
def chainLookup (cs : List IDomStyle) (t k : String) : Option String :=
  match cs with
  | [] => none
  | c :: rest => jsOr (lookupStyle c t k) (chainLookup rest t k)

/-- The ids present along a chain. -/
def chainIds (cs : List IDomStyle) : List String := cs.filterMap (·.id)

/-- Resolution of an acyclic basedOn chain, by induction on the chain: with
fuel one past the chain tail's length, `resolveBaseStyle` terminates on the
chain head; the resolved head's lookups are the chain's first-defined lookups
(the child's own value wins over every ancestor), target kinds and records
stay duplicate-free, the head keeps its id and is stored under it, and no
entry outside the chain changes. -/
theorem resolveChainAux :
    ∀ (cs : List IDomStyle) (c : IDomStyle) (arr : List IDomStyle),
    chainLinked (c :: cs) = true →
    nodupB (chainIds (c :: cs)) = true →
    (∀ s ∈ c :: cs, s.id.isSome = true) →
    (∀ s ∈ cs, s.basedOnResolved = false) →
    (∀ s ∈ c :: cs, ∀ sid, s.id = some sid → findStyle arr sid = some s) →
    (∀ s ∈ c :: cs, nodupB (s.styles.map (·.target)) = true) →
    (∀ s ∈ c :: cs, blocksKeysNodup s.styles = true) →
    ∃ c' arr',
      resolveBaseStyleFuel (cs.length + 1) c arr = some (c', arr') ∧
      (∀ t k, lookupStyle c' t k = chainLookup (c :: cs) t k) ∧
      nodupB (c'.styles.map (·.target)) = true ∧
      blocksKeysNodup c'.styles = true ∧
      c'.id = c.id ∧
      (∀ sid, c.id = some sid → findStyle arr' sid = some c') ∧
      (∀ sid', sid' ∉ chainIds (c :: cs) → findStyle arr' sid' = findStyle arr sid') := by
  intro cs
  induction cs with
  | nil =>
    intro c arr hlink hnd hid hres hfind hT hK
    have hcb : c.basedOn = none := by
      have h1 : c.basedOn.isNone = true := hlink
      exact Option.isNone_iff_eq_none.mp h1
    refine ⟨c, arr, resolveBaseStyleFuel_none 0 c arr hcb, ?_, ?_, ?_, rfl, ?_, ?_⟩
    · intro t k
      show lookupStyle c t k = jsOr (lookupStyle c t k) (chainLookup [] t k)
      rw [show chainLookup [] t k = none from rfl, jsOr_none_right]
    · exact hT c (List.mem_singleton.mpr rfl)
    · exact hK c (List.mem_singleton.mpr rfl)
    · exact fun sid hsid => hfind c (List.mem_singleton.mpr rfl) sid hsid
    · intro sid' _
      rfl
  | cons d rest ih =>
    intro c arr hlink hnd hid hres hfind hT hK
    have hlink1 : ((decide (c.basedOn = d.id) && d.id.isSome) = true) ∧
        chainLinked (d :: rest) = true := by
      have h := hlink
      rw [show chainLinked (c :: d :: rest) =
        ((decide (c.basedOn = d.id) && d.id.isSome) && chainLinked (d :: rest)) from rfl,
        Bool.and_eq_true] at h
      exact h
    obtain ⟨sidD, hdid⟩ := Option.isSome_iff_exists.mp
      (by
        have h2 := hlink1.1
        rw [Bool.and_eq_true] at h2
        exact h2.2)
    have hcb : c.basedOn = some sidD := by
      have h2 := hlink1.1
      rw [Bool.and_eq_true, decide_eq_true_eq] at h2
      rw [h2.1, hdid]
    obtain ⟨sidC, hcid⟩ := Option.isSome_iff_exists.mp (hid c (by simp))
    have hcids : chainIds (c :: d :: rest) = sidC :: chainIds (d :: rest) := by
      unfold chainIds
      rw [List.filterMap_cons, hcid]
    have hndc : sidC ∉ chainIds (d :: rest) := by
      have h := hnd
      rw [hcids] at h
      exact ((nodupB_cons_iff sidC (chainIds (d :: rest))).mp h).1
    have hndrest : nodupB (chainIds (d :: rest)) = true := by
      have h := hnd
      rw [hcids] at h
      exact ((nodupB_cons_iff sidC (chainIds (d :: rest))).mp h).2
    obtain ⟨d', arr1, hrec, hdlook, hdT, hdK, hdid', hdself, hdother⟩ :=
      ih d arr hlink1.2 hndrest
        (fun s hs => hid s (List.mem_cons_of_mem c hs))
        (fun s hs => hres s (List.mem_cons_of_mem d hs))
        (fun s hs sid hsid => hfind s (List.mem_cons_of_mem c hs) sid hsid)
        (fun s hs => hT s (List.mem_cons_of_mem c hs))
        (fun s hs => hK s (List.mem_cons_of_mem c hs))
    have hfd : findStyle arr sidD = some d := hfind d (by simp) sidD hdid
    have hdres0 : d.basedOnResolved = false := hres d (by simp)
    have hstep := resolveBaseStyleFuel_rec (rest.length + 1) c d arr arr1 sidD d'
      hcb hfd hdres0 hrec
    have hbase2 : findStyle arr1 sidD = some d' := hdself sidD hdid
    have hcur : findStyle arr1 sidC = some c := by
      rw [hdother sidC hndc]
      exact hfind c (by simp) sidC hcid
    have hid2 : ({ copyStyle d' c false with basedOnResolved := true } : IDomStyle).id =
        some sidC := by
      show (copyStyle d' c false).id = some sidC
      rw [id_copyStyle]
      exact hcid
    have hstore : storeStyle arr1 { copyStyle d' c false with basedOnResolved := true } =
        updateStyleById arr1 sidC { copyStyle d' c false with basedOnResolved := true } := by
      unfold storeStyle
      rw [hid2]
    have hsteps : resolveBaseStyleFuel (rest.length + 1 + 1) c arr =
        some ({ copyStyle d' c false with basedOnResolved := true },
          storeStyle arr1 { copyStyle d' c false with basedOnResolved := true }) := by
      rw [hstep]
      show (let base2 := (findStyle arr1 sidD).getD d
            let styleCur := match c.id with
              | some i => (findStyle arr1 i).getD c
              | none => c
            let style2 := { copyStyle base2 styleCur false with basedOnResolved := true }
            some (style2, storeStyle arr1 style2)) = _
      simp only [hbase2, hcid, hcur, Option.getD_some]
    refine ⟨{ copyStyle d' c false with basedOnResolved := true },
      storeStyle arr1 { copyStyle d' c false with basedOnResolved := true },
      hsteps, ?_, ?_, ?_, ?_, ?_, ?_⟩
    · intro t k
      show lookupStyle (copyStyle d' c false) t k = chainLookup (c :: d :: rest) t k
      rw [lookupStyle_copyStyle_false d' c t k hdT,
        show chainLookup (c :: d :: rest) t k =
          jsOr (lookupStyle c t k) (chainLookup (d :: rest) t k) from rfl,
        hdlook t k]
    · show nodupB ((copyStyle d' c false).styles.map (·.target)) = true
      exact nodup_targets_copyStyle d' c false (hT c (by simp))
    · show blocksKeysNodup (copyStyle d' c false).styles = true
      exact blocksKeysNodup_copyStyle d' c false hdK (hK c (by simp))
    · show (copyStyle d' c false).id = c.id
      rw [id_copyStyle]
    · intro sid hsid
      have hsid' : sid = sidC := by
        rw [hcid] at hsid
        exact (Option.some.inj hsid).symm
      rw [hsid', hstore]
      exact findStyle_updateStyleById_self arr1 sidC _ (by rw [hcur]; rfl) hid2
    · intro sid' hnm
      have hnot_c : sid' ≠ sidC := fun he => hnm (by
        rw [hcids]
        exact he ▸ List.mem_cons_self _ _)
      have hnm' : sid' ∉ chainIds (d :: rest) := fun hm => hnm (by
        rw [hcids]
        exact List.mem_cons_of_mem _ hm)
      rw [hstore, findStyle_updateStyleById_other arr1 sidC sid' _ hid2 hnot_c]
      exact hdother sid' hnm'

/-- C4: for every acyclic basedOn chain (head = most derived style, each
`basedOn` pointing at the next, distinct ids, duplicate-free blocks) stored in
the styles array, base-style resolution terminates with fuel past the chain
length, and the resolved head satisfies the claim: the value looked up per
(target kind, key) is the chain's first declaration — the child's own value
wins over any ancestor's, ancestors fill the gaps non-destructively — and
every property declared anywhere in the chain appears in the resolved head
exactly once per (target kind, key), properties undeclared in the chain not
at all. -/
theorem c4_chain_resolution
    (cs : List IDomStyle) (c : IDomStyle) (arr : List IDomStyle)
    (hlink : chainLinked (c :: cs) = true)
    (hnd : nodupB (chainIds (c :: cs)) = true)
    (hid : ∀ s ∈ c :: cs, s.id.isSome = true)
    (hres : ∀ s ∈ cs, s.basedOnResolved = false)
    (hfind : ∀ s ∈ c :: cs, ∀ sid, s.id = some sid → findStyle arr sid = some s)
    (hT : ∀ s ∈ c :: cs, nodupB (s.styles.map (·.target)) = true)
    (hK : ∀ s ∈ c :: cs, blocksKeysNodup s.styles = true) :
    ∃ c' arr',
      resolveBaseStyleFuel (cs.length + 1) c arr = some (c', arr') ∧
      (∀ t k, lookupStyle c' t k = chainLookup (c :: cs) t k) ∧
      (∀ t k, declCount c' t k = if (chainLookup (c :: cs) t k).isSome then 1 else 0) := by
  obtain ⟨c', arr', hrun, hlook, hT', hK', _, _, _⟩ :=
    resolveChainAux cs c arr hlink hnd hid hres hfind hT hK
  refine ⟨c', arr', hrun, hlook, ?_⟩
  intro t k
  rw [declCount_eq_lookup c' t k hT' hK', hlook t k]

/-- The leaf of the concrete three-style chain. -/
def cLeaf : IDomStyle :=
  { id := some "a", target := "p", basedOn := some "b", linked := none,
    isDefault := false, basedOnResolved := false, cssName := "",
    styles := [⟨"p", [("color", "red"), ("x", "1")]⟩], paragraphProps := none }

/-- The middle style of the chain. -/
def cMid : IDomStyle :=
  { id := some "b", target := "p", basedOn := some "c", linked := none,
    isDefault := false, basedOnResolved := false, cssName := "",
    styles := [⟨"p", [("color", "green"), ("y", "2")]⟩], paragraphProps := none }

/-- The root style of the chain. -/
def cRoot : IDomStyle :=
  { id := some "c", target := "p", basedOn := none, linked := none,
    isDefault := false, basedOnResolved := false, cssName := "",
    styles := [⟨"p", [("color", "blue"), ("z", "3")]⟩, ⟨"r", [("w", "4")]⟩],
    paragraphProps := none }

/-- The concrete styles array holding the chain. -/
def chainArr : List IDomStyle := [cLeaf, cMid, cRoot]

/-- Witness for C4 at the concrete chain `a → b → c`. -/
theorem c4_witness :
    ∃ c' arr',
      resolveBaseStyleFuel 3 cLeaf chainArr = some (c', arr') ∧
      (∀ t k, lookupStyle c' t k = chainLookup [cLeaf, cMid, cRoot] t k) ∧
      (∀ t k, declCount c' t k =
        if (chainLookup [cLeaf, cMid, cRoot] t k).isSome then 1 else 0) :=
  c4_chain_resolution [cMid, cRoot] cLeaf chainArr rfl rfl (by decide) (by decide)
    (by
      intro s hs sid hsid
      simp only [List.mem_cons, List.not_mem_nil, or_false] at hs
      rcases hs with rfl | rfl | rfl
      · injection hsid with h
        subst h
        rfl
      · injection hsid with h
        subst h
        rfl
      · injection hsid with h
        subst h
        rfl)
    (by decide) (by decide)

end Docx
